import Mathlib

/-!
A verification development for the Positron interpreter (C sources under
src/).  Each C function used by the properties below is embedded as a
Lean definition that follows the source line by line; machine integers
are modelled as `Nat`/`Int` with explicit reductions modulo `2 ^ w`
where the C performs a narrowing conversion, `double` values are
modelled exactly as rationals (`ℚ`), and fallible or possibly
non-terminating C code returns `Option`.
-/

namespace Positron

/-! ## Value model (value.h / value.c)

`enum ValueType { VAL_NULL, VAL_BOOL, VAL_NUMBER, VAL_OBJ }` with payloads
`bool`, `double` and `PObject*`.  The `double` payload is modelled as `ℚ`
(exact arithmetic; the claims below only concern comparisons that are
exact in IEEE arithmetic on the inputs involved).  A heap pointer is
modelled as `Option ℕ`: `none` is the C `NULL`, `some a` an address. -/

inductive Value where
  | null : Value
  | bool (b : Bool) : Value
  | number (n : ℚ) : Value
  | obj (ref : Option ℕ) : Value
deriving DecidableEq, Repr

/-- The four variants of `enum ValueType`. -/
inductive ValueType where
  | VAL_NULL | VAL_BOOL | VAL_NUMBER | VAL_OBJ
deriving DecidableEq, Repr

/-- The `type` tag of a `Value` (the `type` field of the C struct). -/
def Value.variant : Value → ValueType
  | .null => .VAL_NULL
  | .bool _ => .VAL_BOOL
  | .number _ => .VAL_NUMBER
  | .obj _ => .VAL_OBJ

/-- Embedding of `value_is_truthy` (value.c:27-40).  The C source compares
`fabs(value->data.number) > 0.00001f`; the literal `0.00001f` is the
binary32 value nearest to 1/100000 (≈ 1.0000000149e-5).  It is modelled
here as the rational `1/100000`; every theorem below that evaluates this
branch does so at inputs whose comparison result is the same for the two
thresholds.  The function's own doc comment says "integers and floats are
true if != 0". -/
def value_is_truthy : Value → Bool
  | .null => false
  | .bool b => b
  | .number n => decide (|n| > 1 / 100000)
  | .obj ref => decide (ref ≠ none)

/-! ## EQ / NEQ (interpreter.c, `binary`, lines 189-291)

`binary` pops `b`, then `a`, and pushes one result value.  Only the
`TOKEN_EQUAL_EQUAL` and `TOKEN_NOT_EQUAL` arms are needed here; they are
total (they have no error exit). -/

/-- The value pushed by `binary(TOKEN_EQUAL_EQUAL)` for popped operands
`a` and `b` (interpreter.c:269-276). -/
def binaryEq (a b : Value) : Value :=
  match a, b with
  | .number x, .number y => .bool (decide (x = y))
  | _, _ => .bool false

/-- The value pushed by `binary(TOKEN_NOT_EQUAL)` for popped operands
`a` and `b` (interpreter.c:277-284). -/
def binaryNeq (a b : Value) : Value :=
  match a, b with
  | .number x, .number y => .bool (decide (x ≠ y))
  | _, _ => .bool true

/-- Embedding of `binary` restricted to the two comparison opcodes, as a
stack transformer: the C code pops `b`, pops `a` and pushes the result
(stack head = top of stack). -/
def binaryStepEq (stack : List Value) : Option (List Value) :=
  match stack with
  | b :: a :: rest => some (binaryEq a b :: rest)
  | _ => none

/-- `binary(TOKEN_NOT_EQUAL)` as a stack transformer. -/
def binaryStepNeq (stack : List Value) : Option (List Value) :=
  match stack with
  | b :: a :: rest => some (binaryNeq a b :: rest)
  | _ => none

/-- Embedding of the `OP_NOT` action (interpreter.c:503-511): pop `v`,
push the boolean negation of its truthiness. -/
def opNotStep (stack : List Value) : Option (List Value) :=
  match stack with
  | v :: rest => some (.bool (!value_is_truthy v) :: rest)
  | _ => none

/-! ## Block and constant pool (block.h / block.c)

A `Block` owns a byte list of opcodes and a list of constant `Value`s
(both `dyn_list`s in C; `dyn_list_add` appends unconditionally, growing
the backing array as needed). -/

structure Block where
  opcodes : List ℕ
  constants : List Value
deriving Repr

/-- Embedding of `block_new_constant` (block.c:86-90).  The C appends the
clone unconditionally and returns `(uint8_t)block->constants->size - 1`:
the cast narrows the new size to one byte *before* the subtraction, and
the `int` difference is then narrowed again by the `uint8_t` return
type.  For old size `n` the returned byte is
`(((n+1) % 256) + 255) % 256 = n % 256`. -/
def block_new_constant (block : Block) (constant : Value) : Block × ℕ :=
  let constants' := block.constants ++ [constant]
  -- (uint8_t)size yields size % 256; subtracting 1 in int arithmetic and
  -- converting back to uint8_t yields (size % 256 + 255) % 256.
  let ret := (constants'.length % 256 + 255) % 256
  ({ block with constants := constants' }, ret)

/-- `block_new_opcode` (block.c:32-36). -/
def block_new_opcode (block : Block) (opcode : ℕ) : Block :=
  { block with opcodes := block.opcodes ++ [opcode] }

/-- `block_new_opcodes` (block.c:45-53). -/
def block_new_opcodes (block : Block) (a b : ℕ) : Block :=
  { block with opcodes := block.opcodes ++ [a, b] }

/-- `block_new_opcodes_3` (block.c:63-78). -/
def block_new_opcodes_3 (block : Block) (a b c : ℕ) : Block :=
  { block with opcodes := block.opcodes ++ [a, b, c] }

/-- The returned index of `block_new_constant` is the old pool size
reduced modulo 256. -/
theorem block_new_constant_ret (block : Block) (v : Value) :
    (block_new_constant block v).2 = block.constants.length % 256 := by
  unfold block_new_constant
  simp only [List.length_append, List.length_singleton]
  omega

/-! ## Opcode numbering (`enum OpCode`, block.h:19-59) -/

def OP_NOP : ℕ := 0
def OP_POP : ℕ := 1
def OP_DUPE : ℕ := 2
def OP_SWAP : ℕ := 3
def OP_EXIT : ℕ := 4
def OP_RETURN : ℕ := 5
def OP_PRINT : ℕ := 6
def OP_GLOBAL_DEFINE : ℕ := 7
def OP_GLOBAL_SET : ℕ := 8
def OP_GLOBAL_GET : ℕ := 9
def OP_LOCAL_SET : ℕ := 10
def OP_LOCAL_GET : ℕ := 11
def OP_NEGATE : ℕ := 12
def OP_ADD : ℕ := 13
def OP_SUB : ℕ := 14
def OP_MUL : ℕ := 15
def OP_DIV : ℕ := 16
def OP_NOT : ℕ := 17
def OP_LT : ℕ := 18
def OP_GT : ℕ := 19
def OP_LTE : ℕ := 20
def OP_GTE : ℕ := 21
def OP_EQ : ℕ := 22
def OP_NEQ : ℕ := 23
def OP_CONSTANT : ℕ := 24
def OP_CALL : ℕ := 25
def OP_FIELD_GET : ℕ := 26
def OP_FIELD_SET : ℕ := 27
def OP_JUMP : ℕ := 28
def OP_JUMP_BACK : ℕ := 29
def OP_CJUMPF : ℕ := 30
def OP_CJUMPT : ℕ := 31

/-! ## Claim C1 — constant pool append -/

/-- C1 (corrected): `block_new_constant` never fails.  It appends the
value unconditionally and returns the old pool size reduced modulo 256;
for pools of at most 255 entries this is the index of the new constant,
and from the 257th entry on the returned byte wraps around. -/
theorem c1_block_new_constant_amended (block : Block) (v : Value) :
    (block_new_constant block v).1.constants = block.constants ++ [v] ∧
    (block_new_constant block v).1.opcodes = block.opcodes ∧
    (block_new_constant block v).2 = block.constants.length % 256 := by
  refine ⟨rfl, rfl, ?_⟩
  unfold block_new_constant
  simp only [List.length_append, List.length_singleton]
  omega

/-- C1 counterexample: appending the 257th constant does not fail — the
pool grows to 257 entries — and the returned index is 0, not the index
256 of the constant just added (`(uint8_t)` wrap-around past 255). -/
theorem c1_counterexample :
    (block_new_constant ⟨[], List.replicate 256 Value.null⟩ Value.null).2 = 0 ∧
    (block_new_constant ⟨[], List.replicate 256 Value.null⟩
        Value.null).1.constants.length = 257 := by
  constructor
  · rw [block_new_constant_ret]
    simp only [List.length_replicate]
  · simp only [block_new_constant, List.length_append, List.length_replicate,
      List.length_singleton]

/-! ## Claims C5 / C10 — EQ and NEQ semantics -/

/-- C5 (confirmed): `binary` for `OP_EQ`/`OP_NEQ` pops `b`, pops `a` and
pushes a Bool; two Numbers compare by value (so every Number equals
itself), operands of unequal variant compare unequal under `==`, and the
value pushed by `OP_NEQ` is always the boolean negation of the value
pushed by `OP_EQ`. -/
theorem c5_eq_neq_semantics :
    (∀ a b rest, binaryStepEq (b :: a :: rest) = some (binaryEq a b :: rest)) ∧
    (∀ x y : ℚ, binaryEq (.number x) (.number y) = .bool (decide (x = y))) ∧
    (∀ n : ℚ, binaryEq (.number n) (.number n) = .bool true) ∧
    (∀ a b : Value, a.variant ≠ b.variant → binaryEq a b = .bool false) ∧
    (∀ a b : Value, ∃ r : Bool,
      binaryEq a b = .bool r ∧ binaryNeq a b = .bool (!r)) := by
  refine ⟨fun a b rest => rfl, fun x y => rfl, ?_, ?_, ?_⟩
  · intro n; simp [binaryEq]
  · intro a b h
    cases a <;> cases b <;> first
      | rfl
      | exact absurd rfl h
  · intro a b
    match a, b with
    | .number x, .number y =>
        exact ⟨decide (x = y), rfl, by simp [binaryNeq, binaryEq, decide_not]⟩
    | .null, .null => exact ⟨false, rfl, rfl⟩
    | .null, .bool _ => exact ⟨false, rfl, rfl⟩
    | .null, .number _ => exact ⟨false, rfl, rfl⟩
    | .null, .obj _ => exact ⟨false, rfl, rfl⟩
    | .bool _, .null => exact ⟨false, rfl, rfl⟩
    | .bool _, .bool _ => exact ⟨false, rfl, rfl⟩
    | .bool _, .number _ => exact ⟨false, rfl, rfl⟩
    | .bool _, .obj _ => exact ⟨false, rfl, rfl⟩
    | .number _, .null => exact ⟨false, rfl, rfl⟩
    | .number _, .bool _ => exact ⟨false, rfl, rfl⟩
    | .number _, .obj _ => exact ⟨false, rfl, rfl⟩
    | .obj _, .null => exact ⟨false, rfl, rfl⟩
    | .obj _, .bool _ => exact ⟨false, rfl, rfl⟩
    | .obj _, .number _ => exact ⟨false, rfl, rfl⟩
    | .obj _, .obj _ => exact ⟨false, rfl, rfl⟩

/-- Witness for C5 at concrete inputs. -/
theorem c5_witness :
    Value.variant (.number 2) ≠ Value.variant (.bool true) ∧
    binaryEq (.number 2) (.bool true) = .bool false :=
  ⟨by decide, c5_eq_neq_semantics.2.2.2.1 (.number 2) (.bool true) (by decide)⟩

/-- C10 (confirmed): when both operands of `OP_EQ` have the same
non-Number variant the pushed result is `false` (and `OP_NEQ` pushes
`true`); in particular `true == true`, `false == false` and
`null == null` all push `false`; `OP_EQ` pushes `true` only for two
Numbers of equal value. -/
theorem c10_eq_same_non_number :
    (∀ a b : Value, a.variant = b.variant → a.variant ≠ .VAL_NUMBER →
      binaryEq a b = .bool false ∧ binaryNeq a b = .bool true) ∧
    (binaryEq (.bool true) (.bool true) = .bool false) ∧
    (binaryEq (.bool false) (.bool false) = .bool false) ∧
    (binaryEq .null .null = .bool false) ∧
    (binaryNeq (.bool true) (.bool true) = .bool true) ∧
    (binaryNeq .null .null = .bool true) ∧
    (∀ a b : Value, binaryEq a b = .bool true →
      ∃ x : ℚ, a = .number x ∧ b = .number x) := by
  refine ⟨?_, rfl, rfl, rfl, rfl, rfl, ?_⟩
  · intro a b _ hnum
    cases a <;> cases b <;> simp_all [binaryEq, binaryNeq, Value.variant]
  · intro a b h
    match a, b, h with
    | .number x, .number y, h =>
        injection h with h2
        exact ⟨x, rfl, by rw [of_decide_eq_true h2]⟩
    | .null, .null, h => exact absurd h (by simp [binaryEq])
    | .null, .bool _, h => exact absurd h (by simp [binaryEq])
    | .null, .number _, h => exact absurd h (by simp [binaryEq])
    | .null, .obj _, h => exact absurd h (by simp [binaryEq])
    | .bool _, .null, h => exact absurd h (by simp [binaryEq])
    | .bool _, .bool _, h => exact absurd h (by simp [binaryEq])
    | .bool _, .number _, h => exact absurd h (by simp [binaryEq])
    | .bool _, .obj _, h => exact absurd h (by simp [binaryEq])
    | .number _, .null, h => exact absurd h (by simp [binaryEq])
    | .number _, .bool _, h => exact absurd h (by simp [binaryEq])
    | .number _, .obj _, h => exact absurd h (by simp [binaryEq])
    | .obj _, .null, h => exact absurd h (by simp [binaryEq])
    | .obj _, .bool _, h => exact absurd h (by simp [binaryEq])
    | .obj _, .number _, h => exact absurd h (by simp [binaryEq])
    | .obj _, .obj _, h => exact absurd h (by simp [binaryEq])

/-- Witness for C10 at concrete inputs. -/
theorem c10_witness :
    binaryEq .null .null = .bool false ∧ binaryNeq .null .null = .bool true :=
  c10_eq_same_non_number.1 .null .null rfl (by decide)

/-! ## Claim C6 — truthiness -/

/-- `0.000001` is below the code's truthiness threshold `0.00001`. -/
lemma truthy_small_number : value_is_truthy (.number (1 / 1000000)) = false := by
  simp only [value_is_truthy]
  rw [decide_eq_false_iff_not]
  rw [abs_of_pos (by norm_num)]
  norm_num

/-- C6 (code bug): at the failing input `Number 0.000001` the code's
`value_is_truthy` returns `false` — the C compares `fabs(n) > 0.00001f`
— although `0.000001 ≠ 0`, contradicting both the claim and the
function's own doc comment ("integers and floats are true if != 0").
The other branches behave as claimed, and `OP_NOT` pushes the negated
truthiness, so `!0.000001` pushes `true`. -/
theorem c6_truthiness_failing_input :
    value_is_truthy (.number (1 / 1000000)) = false ∧
    (1 / 1000000 : ℚ) ≠ 0 ∧
    value_is_truthy .null = false ∧
    value_is_truthy (.bool true) = true ∧
    value_is_truthy (.bool false) = false ∧
    value_is_truthy (.obj none) = false ∧
    value_is_truthy (.obj (some 0)) = true ∧
    opNotStep [.number (1 / 1000000)] = some [.bool true] := by
  refine ⟨truthy_small_number, by norm_num, rfl, rfl, rfl, by decide, by decide, ?_⟩
  simp only [opNotStep]
  rw [truthy_small_number]
  rfl

/-! ## Lexer (lexer.h / lexer.c / token.h)

The C lexer reads through a `const char* input` cursor with no bounds
other than the NUL terminator; the pointer is modelled as a total byte
stream `ℕ → Char` (the byte the pointer would read at each offset).
Loops whose termination depends on the stream contents take an explicit
fuel argument and return `none`/`noFuel` when it runs out.  Token kinds
are the union of the `enum TokenType` constants referenced by token.h,
lexer.c and parser.c (the checked-in token.h and lexer.c stem from
different revisions: lexer.c also emits `TOKEN_I32`/`TOKEN_STR`, and
parser.c additionally references `TOKEN_F32`/`TOKEN_VOID`). -/

inductive TokenType where
  | TOKEN_NONE | TOKEN_ERROR
  | TOKEN_LITERAL_INTEGER | TOKEN_LITERAL_FLOATING | TOKEN_LITERAL_STRING
  | TOKEN_BOOL | TOKEN_ELSE | TOKEN_EXIT | TOKEN_FALSE | TOKEN_FUN
  | TOKEN_FOR | TOKEN_I32 | TOKEN_F32 | TOKEN_IF | TOKEN_LET | TOKEN_NULL
  | TOKEN_PRINT | TOKEN_RETURN | TOKEN_STR | TOKEN_STRUCT | TOKEN_TRUE
  | TOKEN_VOID | TOKEN_WHILE
  | TOKEN_IDENTIFIER
  | TOKEN_EXCLAMATION | TOKEN_PLUS | TOKEN_MINUS | TOKEN_STAR | TOKEN_SLASH
  | TOKEN_EQUAL | TOKEN_LPAREN | TOKEN_RPAREN | TOKEN_LBRACE | TOKEN_RBRACE
  | TOKEN_LBRACKET | TOKEN_RBRACKET | TOKEN_GREATER | TOKEN_LESS
  | TOKEN_COMMA | TOKEN_DOT | TOKEN_COLON | TOKEN_SEMICOLON
  | TOKEN_EQUAL_EQUAL | TOKEN_NOT_EQUAL | TOKEN_GREATER_EQUAL
  | TOKEN_LESS_EQUAL | TOKEN_AND | TOKEN_OR
  | TOKEN_EOF
deriving DecidableEq, Repr

/-- A token (token.h:71-76); `start` is the offset of the lexeme in the
source stream (the C stores the pointer `lexer.input + start`). -/
structure Token where
  type : TokenType
  start : ℕ
  length : ℕ
  line : ℕ
deriving DecidableEq, Repr

/-- The lexer state (lexer.h:14-18). -/
structure LexState where
  input : ℕ → Char
  line : ℕ
  index : ℕ

/-- The NUL byte `'\0'`. -/
def nullChar : Char := Char.ofNat 0

/-- `peek` (lexer.c:23-25). -/
def peek (s : LexState) : Char := s.input s.index

/-- `peek_next` (lexer.c:30-35). -/
def peek_next (s : LexState) : Char :=
  if s.input s.index = nullChar then nullChar else s.input (s.index + 1)

/-- `isdigit` in the C locale. -/
def cIsDigit (c : Char) : Bool := 48 ≤ c.toNat && c.toNat ≤ 57

/-- `isalpha` in the C locale. -/
def cIsAlpha (c : Char) : Bool :=
  (97 ≤ c.toNat && c.toNat ≤ 122) || (65 ≤ c.toNat && c.toNat ≤ 90)

/-- `isalnum` in the C locale. -/
def cIsAlnum (c : Char) : Bool := cIsAlpha c || cIsDigit c

/-- The whitespace characters skipped by `skip_whitespace` (lexer.c:55). -/
def isWS (c : Char) : Bool := c == ' ' || c == '\r' || c == '\t' || c == '\n'

/-- `skip_whitespace` (lexer.c:51-62). -/
def skip_whitespace : ℕ → LexState → Option LexState
  | 0, _ => none
  | fuel + 1, s =>
    if isWS (peek s) then
      skip_whitespace fuel
        { s with line := if peek s == '\n' then s.line + 1 else s.line,
                 index := s.index + 1 }
    else some s

/-- The `while (isdigit(peek())) lexer.index++;` loops of `number`
(lexer.c:84-85, 93-94). -/
def digitRun : ℕ → LexState → Option LexState
  | 0, _ => none
  | fuel + 1, s =>
    if cIsDigit (peek s) then digitRun fuel { s with index := s.index + 1 }
    else some s

/-- `number` (lexer.c:80-100). -/
def number (fuel : ℕ) (s : LexState) : Option (Token × LexState) :=
  let start := s.index
  (digitRun fuel s).bind fun s1 =>
    if peek s1 == '.' && cIsDigit (peek_next s1) then
      (digitRun fuel { s1 with index := s1.index + 1 }).map fun s2 =>
        (⟨.TOKEN_LITERAL_FLOATING, start, s2.index - start, s2.line⟩, s2)
    else some (⟨.TOKEN_LITERAL_INTEGER, start, s1.index - start, s1.line⟩, s1)

/-- The `while (isalnum(peek())) lexer.index++;` loop of `identifier`
(lexer.c:106-107). -/
def alnumRun : ℕ → LexState → Option LexState
  | 0, _ => none
  | fuel + 1, s =>
    if cIsAlnum (peek s) then alnumRun fuel { s with index := s.index + 1 }
    else some s

/-- `strncmp(schar, kw, strlen(kw)) == 0` for a keyword `kw` (which
contains no NUL): true iff every byte of `kw` equals the corresponding
stream byte from `start` on. -/
def kwMatch (input : ℕ → Char) : ℕ → List Char → Bool
  | _, [] => true
  | start, c :: cs => input start == c && kwMatch input (start + 1) cs

def kwBool : List Char := ['b', 'o', 'o', 'l']
def kwFalse : List Char := ['f', 'a', 'l', 's', 'e']
def kwI32 : List Char := ['i', '3', '2']
def kwIf : List Char := ['i', 'f']
def kwNull : List Char := ['n', 'u', 'l', 'l']
def kwPrint : List Char := ['p', 'r', 'i', 'n', 't']
def kwStr : List Char := ['s', 't', 'r']
def kwTrue : List Char := ['t', 'r', 'u', 'e']
def kwWhile : List Char := ['w', 'h', 'i', 'l', 'e']

/-- The keyword cascade of `identifier` (lexer.c:111-131): nine
`strncmp` tests against the bytes at the identifier's start, in source
order; the identifier's own length is not consulted. -/
def identKeywordType (input : ℕ → Char) (start : ℕ) : TokenType :=
  if kwMatch input start kwBool then .TOKEN_BOOL
  else if kwMatch input start kwFalse then .TOKEN_FALSE
  else if kwMatch input start kwI32 then .TOKEN_I32
  else if kwMatch input start kwIf then .TOKEN_IF
  else if kwMatch input start kwNull then .TOKEN_NULL
  else if kwMatch input start kwPrint then .TOKEN_PRINT
  else if kwMatch input start kwStr then .TOKEN_STR
  else if kwMatch input start kwTrue then .TOKEN_TRUE
  else if kwMatch input start kwWhile then .TOKEN_WHILE
  else .TOKEN_IDENTIFIER

/-- `identifier` (lexer.c:102-132). -/
def identifier (fuel : ℕ) (s : LexState) : Option (Token × LexState) :=
  let start := s.index
  (alnumRun fuel { s with index := s.index + 1 }).map fun s1 =>
    (⟨identKeywordType s.input start, start, s1.index - start, s1.line⟩, s1)

/-- The scan loop of `string` (lexer.c:138-148); returns the state after
the loop together with the `quote` flag. -/
def stringRun : ℕ → LexState → Option (LexState × Bool)
  | 0, _ => none
  | fuel + 1, s =>
    if peek s == nullChar then some (s, false)
    else if peek s == '"' then some ({ s with index := s.index + 1 }, true)
    else
      stringRun fuel
        { s with line := if peek s == '\n' then s.line + 1 else s.line,
                 index := s.index + 1 }

/-- Result of one `lexer_next_token` call: a token and the new state,
a fatal `exit(1)` (unterminated string / unexpected character), or fuel
exhaustion (the C loop would still be running). -/
inductive LexRes where
  | tok (t : Token) (s : LexState) : LexRes
  | fatal : LexRes
  | noFuel : LexRes

/-- `string` (lexer.c:134-155); fatal when the terminator is reached
with no closing quote. -/
def pstring (fuel : ℕ) (s : LexState) : LexRes :=
  let s0 : LexState := { s with index := s.index + 1 }
  let start := s0.index
  match stringRun fuel s0 with
  | none => .noFuel
  | some (s1, quote) =>
    if peek s1 == nullChar && !quote then .fatal
    else .tok ⟨.TOKEN_LITERAL_STRING, start, s1.index - start - 1, s1.line⟩ s1

/-- The `//` comment skip loop (lexer.c:202-203). -/
def commentRun : ℕ → LexState → Option LexState
  | 0, _ => none
  | fuel + 1, s =>
    if peek s != nullChar && peek s != '\n' then
      commentRun fuel { s with index := s.index + 1 }
    else some s

/-- `lexer_next_token` (lexer.c:160-294).  The `switch` is modelled as
the equivalent chain of character tests in source order; the comment
case re-enters the lexer with one unit of fuel consumed. -/
def lexer_next_token : ℕ → LexState → LexRes
  | 0, _ => .noFuel
  | fuel + 1, s =>
    match skip_whitespace (fuel + 1) s with
    | none => .noFuel
    | some s1 =>
      let c := peek s1
      if cIsDigit c then
        match number (fuel + 1) s1 with
        | some (t, s2) => .tok t s2
        | none => .noFuel
      else if cIsAlpha c then
        match identifier (fuel + 1) s1 with
        | some (t, s2) => .tok t s2
        | none => .noFuel
      else if c == '!' then
        if peek_next s1 == '=' then
          .tok ⟨.TOKEN_NOT_EQUAL, s1.index, 2, s1.line⟩ { s1 with index := s1.index + 2 }
        else .tok ⟨.TOKEN_EXCLAMATION, s1.index, 1, s1.line⟩ { s1 with index := s1.index + 1 }
      else if c == '+' then
        .tok ⟨.TOKEN_PLUS, s1.index, 1, s1.line⟩ { s1 with index := s1.index + 1 }
      else if c == '-' then
        .tok ⟨.TOKEN_MINUS, s1.index, 1, s1.line⟩ { s1 with index := s1.index + 1 }
      else if c == '*' then
        .tok ⟨.TOKEN_STAR, s1.index, 1, s1.line⟩ { s1 with index := s1.index + 1 }
      else if c == '/' then
        if peek_next s1 == '/' then
          match commentRun (fuel + 1) s1 with
          | none => .noFuel
          | some s2 => lexer_next_token fuel s2
        else .tok ⟨.TOKEN_SLASH, s1.index, 1, s1.line⟩ { s1 with index := s1.index + 1 }
      else if c == '=' then
        if peek_next s1 == '=' then
          .tok ⟨.TOKEN_EQUAL_EQUAL, s1.index, 2, s1.line⟩ { s1 with index := s1.index + 2 }
        else .tok ⟨.TOKEN_EQUAL, s1.index, 1, s1.line⟩ { s1 with index := s1.index + 1 }
      else if c == '(' then
        .tok ⟨.TOKEN_LPAREN, s1.index, 1, s1.line⟩ { s1 with index := s1.index + 1 }
      else if c == ')' then
        .tok ⟨.TOKEN_RPAREN, s1.index, 1, s1.line⟩ { s1 with index := s1.index + 1 }
      else if c == '{' then
        .tok ⟨.TOKEN_LBRACE, s1.index, 1, s1.line⟩ { s1 with index := s1.index + 1 }
      else if c == '}' then
        .tok ⟨.TOKEN_RBRACE, s1.index, 1, s1.line⟩ { s1 with index := s1.index + 1 }
      else if c == ';' then
        .tok ⟨.TOKEN_SEMICOLON, s1.index, 1, s1.line⟩ { s1 with index := s1.index + 1 }
      else if c == '>' then
        if peek_next s1 == '=' then
          .tok ⟨.TOKEN_GREATER_EQUAL, s1.index, 2, s1.line⟩ { s1 with index := s1.index + 2 }
        else .tok ⟨.TOKEN_GREATER, s1.index, 1, s1.line⟩ { s1 with index := s1.index + 1 }
      else if c == '<' then
        if peek_next s1 == '=' then
          .tok ⟨.TOKEN_LESS_EQUAL, s1.index, 2, s1.line⟩ { s1 with index := s1.index + 2 }
        else .tok ⟨.TOKEN_LESS, s1.index, 1, s1.line⟩ { s1 with index := s1.index + 1 }
      else if c == '"' then
        pstring (fuel + 1) s1
      else if c == '&' then
        if peek_next s1 == '&' then
          .tok ⟨.TOKEN_AND, s1.index, 2, s1.line⟩ { s1 with index := s1.index + 2 }
        else .fatal
      else if c == '|' then
        if peek_next s1 == '|' then
          .tok ⟨.TOKEN_OR, s1.index, 2, s1.line⟩ { s1 with index := s1.index + 2 }
        else .fatal
      else if c == nullChar then
        .tok ⟨.TOKEN_EOF, s1.index, 1, s1.line⟩ { s1 with index := s1.index + 1 }
      else .fatal

/-- The type of the `k`-th token (0-based) produced by repeated
`lexer_next_token` calls from state `s`, each call run with `fuel`. -/
def lexNthType (fuel : ℕ) : ℕ → LexState → Option TokenType
  | k, s =>
    match lexer_next_token fuel s with
    | .tok t s' =>
      match k with
      | 0 => some t.type
      | k' + 1 => lexNthType fuel k' s'
    | _ => none

/-- A lexer state over a buffer holding the bytes of `str` followed by
the NUL terminator, with the memory beyond the buffer all zero (used to
build concrete test inputs). -/
def initLex (str : String) : LexState :=
  ⟨fun i => (str.toList ++ [nullChar]).getD i nullChar, 1, 0⟩

/-! ## Claim C2 — reserved words -/

/-- The reserved words the checked-in lexer actually recognises, with
their tokens, in the order of the `strncmp` cascade of `identifier`. -/
def reservedWords : List (List Char × TokenType) :=
  [(kwBool, .TOKEN_BOOL), (kwFalse, .TOKEN_FALSE), (kwI32, .TOKEN_I32),
   (kwIf, .TOKEN_IF), (kwNull, .TOKEN_NULL), (kwPrint, .TOKEN_PRINT),
   (kwStr, .TOKEN_STR), (kwTrue, .TOKEN_TRUE), (kwWhile, .TOKEN_WHILE)]

/-- Specification-side classification (from the amended claim's words):
the token of the first reserved word whose bytes are a prefix of the
source at the identifier's start, or `TOKEN_IDENTIFIER` if none is. -/
def reservedSpec (input : ℕ → Char) (start : ℕ) : TokenType :=
  match reservedWords.find? (fun kw => kwMatch input start kw.1) with
  | some kw => kw.2
  | none => .TOKEN_IDENTIFIER

/-- C2 (corrected): the lexer recognises nine reserved words — bool,
false, i32, if, null, print, str, true, while — not the claimed
fourteen, and it classifies by *prefix*: an identifier is lexed as the
first reserved word in cascade order whose bytes prefix the source at
the identifier's start, otherwise as IDENTIFIER.  Hence each of else,
exit, for, fun, let, return is an IDENTIFIER, `struct` is lexed as the
`str` reserved token (prefix match), each of the nine words above is its
reserved token, and a longer word beginning with a reserved word
(e.g. `boolean`) is lexed as that reserved word. -/
theorem c2_reserved_words_amended :
    (∀ input start, identKeywordType input start = reservedSpec input start) ∧
    (∀ fuel s t s', identifier fuel s = some (t, s') →
        t.type = identKeywordType s.input s.index) ∧
    lexNthType 20 0 (initLex "else") = some .TOKEN_IDENTIFIER ∧
    lexNthType 20 0 (initLex "exit") = some .TOKEN_IDENTIFIER ∧
    lexNthType 20 0 (initLex "for") = some .TOKEN_IDENTIFIER ∧
    lexNthType 20 0 (initLex "fun") = some .TOKEN_IDENTIFIER ∧
    lexNthType 20 0 (initLex "let") = some .TOKEN_IDENTIFIER ∧
    lexNthType 20 0 (initLex "return") = some .TOKEN_IDENTIFIER ∧
    lexNthType 20 0 (initLex "struct") = some .TOKEN_STR ∧
    lexNthType 20 0 (initLex "bool") = some .TOKEN_BOOL ∧
    lexNthType 20 0 (initLex "false") = some .TOKEN_FALSE ∧
    lexNthType 20 0 (initLex "i32") = some .TOKEN_I32 ∧
    lexNthType 20 0 (initLex "if") = some .TOKEN_IF ∧
    lexNthType 20 0 (initLex "null") = some .TOKEN_NULL ∧
    lexNthType 20 0 (initLex "print") = some .TOKEN_PRINT ∧
    lexNthType 20 0 (initLex "str") = some .TOKEN_STR ∧
    lexNthType 20 0 (initLex "true") = some .TOKEN_TRUE ∧
    lexNthType 20 0 (initLex "while") = some .TOKEN_WHILE ∧
    lexNthType 20 0 (initLex "boolean") = some .TOKEN_BOOL := by
  refine ⟨?_, ?_, by decide⟩
  · intro input start
    unfold identKeywordType reservedSpec reservedWords
    split_ifs <;> simp_all [List.find?]
  · intro fuel s t s' h
    unfold identifier at h
    cases halt : alnumRun fuel { s with index := s.index + 1 } with
    | none => rw [halt] at h; simp at h
    | some s1 =>
      rw [halt] at h
      simp only [Option.map_some', Option.some.injEq, Prod.mk.injEq] at h
      rw [← h.1]

/-- Witness for C2: the reserved-word classification applied to the
concrete source `print`. -/
theorem c2_witness :
    identifier 20 (initLex "print") =
      some (⟨.TOKEN_PRINT, 0, 5, 1⟩, ⟨(initLex "print").input, 1, 5⟩) ∧
    (⟨.TOKEN_PRINT, 0, 5, 1⟩ : Token).type =
      identKeywordType (initLex "print").input 0 :=
  ⟨by rfl, c2_reserved_words_amended.2.1 20 (initLex "print") _ _ (by rfl)⟩

/-- C2 counterexample: the source `iffy` is lexed as the reserved token
`TOKEN_IF` (the cascade uses `strncmp(schar, "if", 2)`), not as the
IDENTIFIER the claim requires for a word merely beginning with a
reserved word. -/
theorem c2_counterexample :
    lexNthType 20 0 (initLex "iffy") = some .TOKEN_IF ∧
    lexNthType 20 0 (initLex "iffy") ≠ some .TOKEN_IDENTIFIER := by
  decide

/-! ## Claim C8 — behaviour after EOF -/

/-- `skip_whitespace` returns immediately on a non-whitespace byte. -/
lemma skipws_not (s : LexState) (fuel : ℕ) (h : isWS (peek s) = false) :
    skip_whitespace (fuel + 1) s = some s := by
  simp [skip_whitespace, h]

/-- One `lexer_next_token` call on a state whose remaining stream is all
NUL bytes: it emits EOF and advances the cursor past the NUL. -/
lemma lexer_eof_step (s : LexState) (fuel : ℕ)
    (h : ∀ j, s.index ≤ j → s.input j = nullChar) :
    lexer_next_token (fuel + 1) s =
      .tok ⟨.TOKEN_EOF, s.index, 1, s.line⟩ ⟨s.input, s.line, s.index + 1⟩ := by
  have hp0 : s.input s.index = nullChar := h s.index le_rfl
  have hws : isWS (peek s) = false := by rw [peek, hp0]; decide
  have e1 : cIsDigit nullChar = false := by decide
  have e2 : cIsAlpha nullChar = false := by decide
  have e3 : (nullChar == '!') = false := by decide
  have e4 : (nullChar == '+') = false := by decide
  have e5 : (nullChar == '-') = false := by decide
  have e6 : (nullChar == '*') = false := by decide
  have e7 : (nullChar == '/') = false := by decide
  have e8 : (nullChar == '=') = false := by decide
  have e9 : (nullChar == '(') = false := by decide
  have e10 : (nullChar == ')') = false := by decide
  have e11 : (nullChar == '{') = false := by decide
  have e12 : (nullChar == '}') = false := by decide
  have e13 : (nullChar == ';') = false := by decide
  have e14 : (nullChar == '>') = false := by decide
  have e15 : (nullChar == '<') = false := by decide
  have e16 : (nullChar == '"') = false := by decide
  have e17 : (nullChar == '&') = false := by decide
  have e18 : (nullChar == '|') = false := by decide
  have e19 : (nullChar == nullChar) = true := by decide
  rw [lexer_next_token, skipws_not s fuel hws]
  simp only [peek, hp0, e1, e2, e3, e4, e5, e6, e7, e8, e9, e10, e11, e12, e13,
    e14, e15, e16, e17, e18, e19, Bool.false_eq_true, if_false, if_true]

/-- Iterating `lexer_next_token` over an all-NUL remaining stream yields
EOF at every position. -/
lemma lexer_eof_all (fuel : ℕ) :
    ∀ (k : ℕ) (s : LexState), (∀ j, s.index ≤ j → s.input j = nullChar) →
      lexNthType (fuel + 1) k s = some .TOKEN_EOF := by
  intro k
  induction k with
  | zero =>
    intro s h
    rw [lexNthType, lexer_eof_step s fuel h]
  | succ k ih =>
    intro s h
    rw [lexNthType, lexer_eof_step s fuel h]
    exact ih ⟨s.input, s.line, s.index + 1⟩ fun j hj => h j (Nat.le_of_succ_le hj)

/-- C8 (corrected): after emitting EOF the lexer has advanced its index
*past* the NUL terminator, so a further call re-lexes whatever bytes
follow the buffer; the claim holds exactly when those bytes are again
NUL — in particular, on a stream that is all NUL from the cursor on,
every call returns an EOF token. -/
theorem c8_eof_amended (s : LexState) (fuel : ℕ)
    (h : ∀ j, s.index ≤ j → s.input j = nullChar) :
    lexer_next_token (fuel + 1) s =
      .tok ⟨.TOKEN_EOF, s.index, 1, s.line⟩ ⟨s.input, s.line, s.index + 1⟩ ∧
    ∀ k, lexNthType (fuel + 1) k s = some .TOKEN_EOF :=
  ⟨lexer_eof_step s fuel h, fun k => lexer_eof_all fuel k s h⟩

/-- Witness for C8 on the concrete all-NUL stream. -/
theorem c8_witness :
    lexer_next_token 6 ⟨fun _ => nullChar, 1, 0⟩ =
      .tok ⟨.TOKEN_EOF, 0, 1, 1⟩ ⟨fun _ => nullChar, 1, 0 + 1⟩ ∧
    lexNthType 6 3 ⟨fun _ => nullChar, 1, 0⟩ = some .TOKEN_EOF :=
  ⟨(c8_eof_amended ⟨fun _ => nullChar, 1, 0⟩ 5 fun _ _ => rfl).1,
   (c8_eof_amended ⟨fun _ => nullChar, 1, 0⟩ 5 fun _ _ => rfl).2 3⟩

/-- C8 counterexample: a buffer whose source is empty (terminator at
offset 0) but where the byte after the terminator is `'1'`.  The first
call returns EOF; the *second* call walks past the terminator and
returns an integer-literal token, not EOF. -/
theorem c8_counterexample :
    lexNthType 20 0 ⟨fun i => if i = 1 then '1' else nullChar, 1, 0⟩ =
      some .TOKEN_EOF ∧
    lexNthType 20 1 ⟨fun i => if i = 1 then '1' else nullChar, 1, 0⟩ =
      some .TOKEN_LITERAL_INTEGER ∧
    lexNthType 20 1 ⟨fun i => if i = 1 then '1' else nullChar, 1, 0⟩ ≠
      some .TOKEN_EOF := by
  decide

/-! ## Compiler locals (parser.h / parser.c)

`Local { Token name; size_t depth; Value value; }` (parser.h:43-47); the
parser state carries `locals[MAX_LOCALS]` with `MAX_LOCALS = UINT8_MAX
= 255`, a scope depth, the current function's block and the sticky
`had_error` flag.  Only the fields touched by `get_local`, `new_local`
and `pop_locals` are modelled; token names are compared through the
source stream exactly as the C does. -/

structure PLocal where
  name : Token
  depth : ℕ
  value : Value

structure ParserSt where
  stream : ℕ → Char
  block : Block
  locals : List PLocal
  scope : ℕ
  hadError : Bool

/-- `strncmp(s1, s2, n) == 0` where both arguments point into the
source stream (offsets `p` and `q`): bytes compare equal until a
mismatch, a NUL, or `n` characters. -/
def strncmpEqN (stream : ℕ → Char) : ℕ → ℕ → ℕ → Bool
  | _, _, 0 => true
  | p, q, n + 1 =>
    if stream p != stream q then false
    else if stream p == nullChar then true
    else strncmpEqN stream (p + 1) (q + 1) n

/-- The comparison `get_local` performs (parser.c:179-180):
`strncmp(locals[i].name.start, name->start, max(lengths)) == 0`. -/
def namesMatch (stream : ℕ → Char) (a b : Token) : Bool :=
  strncmpEqN stream a.start b.start (max a.length b.length)

/-- Apologetic default entry used for the (never-taken) out-of-range
list reads. -/
def defaultLocal : PLocal := ⟨⟨.TOKEN_NONE, 0, 0, 0⟩, 0, .null⟩

/-- The scan loop of `get_local` (parser.c:177-183): `i` runs from
`local_count - 1` down to 0, returning the first name match. -/
def getLocalGo (stream : ℕ → Char) (locals : List PLocal) (name : Token) :
    ℕ → Option ℕ
  | 0 => none
  | i + 1 =>
    if namesMatch stream (locals.getD i defaultLocal).name name then some i
    else getLocalGo stream locals name i

/-- `get_local` (parser.c:176-185); `none` models the C return -1. -/
def get_local (st : ParserSt) (name : Token) : Option ℕ :=
  getLocalGo st.stream st.locals name st.locals.length

/-- `new_local` (parser.c:194-210): errors when `local_count ==
UINT8_MAX` or when `get_local` finds *any* existing local of the same
name (whatever its depth); otherwise appends a slot at the current
scope depth and returns its index. -/
def new_local (st : ParserSt) (name : Token) (value : Value) :
    ParserSt × Option ℕ :=
  if st.locals.length = 255 then ({ st with hadError := true }, none)
  else
    match get_local st name with
    | some _ => ({ st with hadError := true }, none)
    | none =>
      ({ st with locals := st.locals ++ [⟨name, st.scope, value⟩] },
       some st.locals.length)

/-- The loop of `pop_locals` (parser.c:159-166) over the locals read
from the top of the table (head of the reversed list): break at the
first local with `depth <= scope`, otherwise emit `OP_POP` and drop
the slot. -/
def popLocalsRev (scope : ℕ) : List PLocal → Block → (List PLocal × Block)
  | [], b => ([], b)
  | l :: rest, b =>
    if l.depth ≤ scope then (l :: rest, b)
    else popLocalsRev scope rest (block_new_opcode b OP_POP)

/-- `pop_locals` (parser.c:158-167). -/
def pop_locals (st : ParserSt) : ParserSt :=
  let r := popLocalsRev st.scope st.locals.reverse st.block
  { st with locals := r.1.reverse, block := r.2 }

/-- A `get_local` hit is always an index below the scanned count. -/
lemma getLocalGo_lt (stream : ℕ → Char) (locals : List PLocal)
    (name : Token) :
    ∀ n i, getLocalGo stream locals name n = some i → i < n := by
  intro n
  induction n with
  | zero => intro i h; simp [getLocalGo] at h
  | succ n ih =>
    intro i h
    rw [getLocalGo] at h
    split at h
    · cases h; omega
    · exact Nat.lt_succ_of_lt (ih i h)

/-- `popLocalsRev` pops exactly the inner segment when the reversed
table splits as inner (all deeper than `scope`) then outer (all at most
`scope`). -/
lemma popLocalsRev_split (scope : ℕ) :
    ∀ (innerRev preRev : List PLocal) (b : Block),
      (∀ l ∈ innerRev, scope < l.depth) → (∀ l ∈ preRev, l.depth ≤ scope) →
      popLocalsRev scope (innerRev ++ preRev) b =
        (preRev, { b with opcodes := b.opcodes ++ List.replicate innerRev.length OP_POP }) := by
  intro innerRev
  induction innerRev with
  | nil =>
    intro preRev b _ hpre
    cases preRev with
    | nil => simp [popLocalsRev]
    | cons l rest =>
      have : l.depth ≤ scope := hpre l (by simp)
      simp [popLocalsRev, this]
  | cons l rest ih =>
    intro preRev b hinner hpre
    have hl : scope < l.depth := hinner l (by simp)
    have : ¬ l.depth ≤ scope := by omega
    rw [List.cons_append, popLocalsRev, if_neg this,
      ih preRev _ (fun x hx => hinner x (by simp [hx])) hpre]
    simp [block_new_opcode, List.replicate_succ]

/-- C3 (corrected): a declaration whose name matches *any* live local —
in the same scope or an enclosing one — is a compile error
("Redefinition of variable"), so shadowing is rejected, not accepted;
a genuinely fresh name (with fewer than 255 locals) is appended at the
current scope depth; and when a scope closes, `pop_locals` emits one
`OP_POP` per inner local, truncates the table to the outer segment,
after which no name can resolve to a truncated slot. -/
theorem c3_locals_amended :
    (∀ (st : ParserSt) (name : Token) (v : Value), (get_local st name).isSome →
       (new_local st name v).1.hadError = true ∧ (new_local st name v).2 = none) ∧
    (∀ (st : ParserSt) (name : Token) (v : Value),
       get_local st name = none → st.locals.length ≠ 255 →
       (new_local st name v).1.locals = st.locals ++ [⟨name, st.scope, v⟩] ∧
       (new_local st name v).2 = some st.locals.length ∧
       (new_local st name v).1.hadError = st.hadError) ∧
    (∀ (st : ParserSt) (pre inner : List PLocal), st.locals = pre ++ inner →
       (∀ l ∈ inner, st.scope < l.depth) → (∀ l ∈ pre, l.depth ≤ st.scope) →
       (pop_locals st).locals = pre ∧
       (pop_locals st).block.opcodes =
         st.block.opcodes ++ List.replicate inner.length OP_POP ∧
       (∀ (name : Token) (i : ℕ),
          get_local (pop_locals st) name = some i → i < pre.length)) := by
  refine ⟨?_, ?_, ?_⟩
  · intro st name v h
    unfold new_local
    split
    · exact ⟨rfl, rfl⟩
    · cases hg : get_local st name with
      | none => rw [hg] at h; simp at h
      | some j => exact ⟨rfl, rfl⟩
  · intro st name v hg hlen
    unfold new_local
    rw [if_neg hlen, hg]
    exact ⟨rfl, rfl, rfl⟩
  · intro st pre inner hsplit hinner hpre
    have hrev : st.locals.reverse = inner.reverse ++ pre.reverse := by
      rw [hsplit, List.reverse_append]
    have hmain := popLocalsRev_split st.scope inner.reverse pre.reverse st.block
      (fun l hl => hinner l (List.mem_reverse.mp hl))
      (fun l hl => hpre l (List.mem_reverse.mp hl))
    have hlocals : (pop_locals st).locals = pre := by
      unfold pop_locals
      rw [hrev, hmain]
      simp
    refine ⟨hlocals, ?_, ?_⟩
    · unfold pop_locals
      rw [hrev, hmain]
      simp
    · intro name i h
      unfold get_local at h
      have := getLocalGo_lt _ _ _ _ _ h
      rwa [hlocals] at this

/-- The stream for the concrete shadowing test: the byte `x` at offsets
0 and 2 (two occurrences of the same one-character name). -/
def c3stream : ℕ → Char := fun i => if i = 0 ∨ i = 2 then 'x' else nullChar

/-- Parser state inside an inner scope (depth 2) whose only local `x`
was declared in the enclosing scope (depth 1). -/
def c3state : ParserSt :=
  ⟨c3stream, ⟨[], []⟩, [⟨⟨.TOKEN_IDENTIFIER, 0, 1, 1⟩, 1, .null⟩], 2, false⟩

/-- Witness for C3: closing the inner scope of a two-local table pops
exactly the inner local and leaves the outer one. -/
theorem c3_witness :
    (pop_locals ⟨c3stream, ⟨[], []⟩,
        [⟨⟨.TOKEN_IDENTIFIER, 0, 1, 1⟩, 1, .null⟩,
         ⟨⟨.TOKEN_IDENTIFIER, 2, 1, 1⟩, 2, .null⟩], 1, false⟩).locals =
      [⟨⟨.TOKEN_IDENTIFIER, 0, 1, 1⟩, 1, .null⟩] ∧
    (pop_locals ⟨c3stream, ⟨[], []⟩,
        [⟨⟨.TOKEN_IDENTIFIER, 0, 1, 1⟩, 1, .null⟩,
         ⟨⟨.TOKEN_IDENTIFIER, 2, 1, 1⟩, 2, .null⟩], 1, false⟩).block.opcodes =
      [] ++ List.replicate 1 OP_POP := by
  have h := c3_locals_amended.2.2
    ⟨c3stream, ⟨[], []⟩,
        [⟨⟨.TOKEN_IDENTIFIER, 0, 1, 1⟩, 1, .null⟩,
         ⟨⟨.TOKEN_IDENTIFIER, 2, 1, 1⟩, 2, .null⟩], 1, false⟩
    [⟨⟨.TOKEN_IDENTIFIER, 0, 1, 1⟩, 1, .null⟩]
    [⟨⟨.TOKEN_IDENTIFIER, 2, 1, 1⟩, 2, .null⟩]
    rfl (by decide) (by decide)
  exact ⟨h.1, h.2.1⟩

/-- C3 counterexample: in `c3state` the only live local named `x` was
declared at depth 1 and the current scope is 2, yet `new_local` for a
new `x` reports a redefinition error instead of accepting the shadowing
declaration the claim requires. -/
theorem c3_counterexample :
    (new_local c3state ⟨.TOKEN_IDENTIFIER, 2, 1, 1⟩ .null).1.hadError = true ∧
    (new_local c3state ⟨.TOKEN_IDENTIFIER, 2, 1, 1⟩ .null).2 = none ∧
    (∀ l ∈ c3state.locals, l.depth < c3state.scope) := by
  decide

/-! ## Claim C4 — forward-jump patching (parser.c)

`statement_if` (parser.c:735-769, both the no-`else` and `else` forms),
`statement_while` (parser.c:909-936) and `statement_for` (parser.c:
944-1035, with and without a conditional) emit a jump opcode with two
`0xFF` placeholder bytes, compile the guarded code, and then back-patch
the two bytes with the big-endian offset, *saturating* it at
`UINT16_MAX`: `uint16_t size = jump < UINT16_MAX ? jump : UINT16_MAX;`
(the `OP_JUMP_BACK` operands are emitted directly with the same
saturating idiom).  None of these functions calls `parse_error` at any
patch or emission site, so the embeddings below thread the `had_error`
flag through unchanged.  The code emitted for the nested statements,
conditions and post-expressions is abstracted as the byte list it
appends to the block. -/

/-- The two patch stores (e.g. parser.c:765-767):
`data[pos] = (size >> 8) & 0xFF; data[pos+1] = size & 0xFF;`. -/
def patchU16 (ops : List ℕ) (pos size : ℕ) : List ℕ :=
  (ops.set pos ((size >>> 8) &&& 255)).set (pos + 1) (size &&& 255)

/-- `statement_if` without an `else` (parser.c:742-744 and 762-768):
`pre` is the block content including the compiled condition, `thenCode`
the bytes the branch statement appends. -/
def statement_if_noelse (pre thenCode : List ℕ) (hadError : Bool) :
    List ℕ × Bool :=
  let ops1 := pre ++ [OP_CJUMPF, 255, 255]
  let start := ops1.length - 2
  let ops2 := ops1 ++ thenCode
  let jump := ops2.length - start - 1
  let size := if jump < 65535 then jump else 65535
  (patchU16 ops2 start size, hadError)

/-- `statement_while` (parser.c:909-927), first half: the block already
holds `pre`; the condition code, the `OP_CJUMPF` placeholder and the
body are appended and the forward exit offset is patched. -/
def statement_while_forward (pre condCode bodyCode : List ℕ) : List ℕ :=
  let ops1 := (pre ++ condCode) ++ [OP_CJUMPF, 255, 255]
  let codes := ops1.length - 2
  let ops2 := ops1 ++ bodyCode
  let jump := ops2.length - (codes + 2) + 4
  let size := if jump < 65535 then jump else 65535
  patchU16 ops2 codes size

/-- `statement_while` (parser.c:909-936), second half (lines 929-935):
append the `OP_JUMP_BACK` placeholder and patch it with the distance
back to the condition (`codes + 1 - start`). -/
def statement_while_emit (pre condCode bodyCode : List ℕ) (hadError : Bool) :
    List ℕ × Bool :=
  let start := pre.length
  let ops3 := statement_while_forward pre condCode bodyCode
  let ops4 := ops3 ++ [OP_JUMP_BACK, 255, 255]
  let codes2 := ops4.length - 2
  let size2 := if codes2 + 1 - start < 65535 then codes2 + 1 - start else 65535
  (patchU16 ops4 codes2 size2, hadError)

/-- The C saturation idiom is `min`. -/
lemma ite_min (a b : ℕ) : (if a < b then a else b) = min a b := by
  split <;> omega

/-- `x & 0xFF` is `x % 256`. -/
lemma and255_eq_mod (x : ℕ) : x &&& 255 = x % 256 := by
  have := Nat.and_pow_two_sub_one_eq_mod x 8
  norm_num at this
  exact this

/-- High byte of a value below 2^16. -/
lemma patch_hi (m : ℕ) (hm : m < 65536) : (m >>> 8) &&& 255 = m / 256 := by
  rw [Nat.shiftRight_eq_div_pow, and255_eq_mod]
  have h2 : (2 : ℕ) ^ 8 = 256 := by norm_num
  rw [h2]
  exact Nat.mod_eq_of_lt (Nat.div_lt_of_lt_mul (by omega))

/-- Setting the two bytes after a marker byte in the middle of a list. -/
lemma set2_mid (pre : List ℕ) : ∀ (tail : List ℕ) (a b c v w : ℕ),
    ((pre ++ a :: b :: c :: tail).set (pre.length + 1) v).set (pre.length + 2) w
      = pre ++ a :: v :: w :: tail := by
  induction pre with
  | nil => intro tail a b c v w; simp [List.set]
  | cons p ps ih =>
    intro tail a b c v w
    simp only [List.cons_append, List.length_cons]
    have e1 : ps.length + 1 + 1 = (ps.length + 1) + 1 := rfl
    have e2 : ps.length + 1 + 2 = (ps.length + 2) + 1 := rfl
    rw [e1, e2]
    simp only [List.set]
    rw [ih]

/-- `patchU16` applied at the placeholder position of an emitted
opcode-plus-two-placeholder-bytes sequence. -/
lemma patchU16_mid (pre tail : List ℕ) (a b c s : ℕ) :
    patchU16 (pre ++ a :: b :: c :: tail) (pre.length + 1) s
      = pre ++ a :: ((s >>> 8) &&& 255) :: (s &&& 255) :: tail := by
  unfold patchU16
  rw [set2_mid]

/-- What `statement_if` without `else` emits: the placeholder is always
patched, with the offset `thenCode.length + 1` saturated at 65535. -/
lemma statement_if_noelse_spec (pre thenCode : List ℕ) (he : Bool) :
    statement_if_noelse pre thenCode he =
      (pre ++ [OP_CJUMPF, min (thenCode.length + 1) 65535 / 256,
               min (thenCode.length + 1) 65535 % 256] ++ thenCode, he) := by
  unfold statement_if_noelse
  dsimp only
  have hstart : (pre ++ [OP_CJUMPF, 255, 255]).length - 2 = pre.length + 1 := by
    simp
  rw [hstart]
  have hjump : ((pre ++ [OP_CJUMPF, 255, 255]) ++ thenCode).length - (pre.length + 1) - 1
      = thenCode.length + 1 := by
    simp only [List.length_append, List.length_cons, List.length_nil]
    omega
  rw [hjump, ite_min]
  have hassoc : (pre ++ [OP_CJUMPF, 255, 255]) ++ thenCode
      = pre ++ OP_CJUMPF :: 255 :: 255 :: thenCode := by simp
  rw [hassoc, patchU16_mid]
  rw [patch_hi _ (by omega), and255_eq_mod]
  simp

/-- What the first half of `statement_while` emits: the forward exit
offset is `bodyCode.length + 4`, saturated at 65535. -/
lemma statement_while_forward_spec (pre condCode bodyCode : List ℕ) :
    statement_while_forward pre condCode bodyCode =
      pre ++ condCode ++
        [OP_CJUMPF, min (bodyCode.length + 4) 65535 / 256,
         min (bodyCode.length + 4) 65535 % 256] ++ bodyCode := by
  unfold statement_while_forward
  dsimp only
  have hcodes : ((pre ++ condCode) ++ [OP_CJUMPF, 255, 255]).length - 2
      = (pre ++ condCode).length + 1 := by
    simp only [List.length_append, List.length_cons, List.length_nil]
    omega
  rw [hcodes]
  have hjump : (((pre ++ condCode) ++ [OP_CJUMPF, 255, 255]) ++ bodyCode).length
      - ((pre ++ condCode).length + 1 + 2) + 4 = bodyCode.length + 4 := by
    simp only [List.length_append, List.length_cons, List.length_nil]
    omega
  rw [hjump, ite_min]
  have hassoc : ((pre ++ condCode) ++ [OP_CJUMPF, 255, 255]) ++ bodyCode
      = (pre ++ condCode) ++ OP_CJUMPF :: 255 :: 255 :: bodyCode := by simp
  rw [hassoc, patchU16_mid]
  rw [patch_hi _ (by omega), and255_eq_mod]
  simp

/-- What the whole of `statement_while` emits: both jumps patched, the
back jump spanning `condCode.length + bodyCode.length + 5` bytes,
saturated at 65535; the error flag is untouched. -/
lemma statement_while_emit_spec (pre condCode bodyCode : List ℕ) (he : Bool) :
    statement_while_emit pre condCode bodyCode he =
      (pre ++ condCode ++
        [OP_CJUMPF, min (bodyCode.length + 4) 65535 / 256,
         min (bodyCode.length + 4) 65535 % 256] ++ bodyCode ++
        [OP_JUMP_BACK, min (condCode.length + bodyCode.length + 5) 65535 / 256,
         min (condCode.length + bodyCode.length + 5) 65535 % 256], he) := by
  unfold statement_while_emit
  dsimp only
  rw [statement_while_forward_spec]
  have hlen2 : ((pre ++ condCode ++
        [OP_CJUMPF, min (bodyCode.length + 4) 65535 / 256,
         min (bodyCode.length + 4) 65535 % 256] ++ bodyCode)
        ++ [OP_JUMP_BACK, 255, 255]).length - 2
      = (pre ++ condCode ++
        [OP_CJUMPF, min (bodyCode.length + 4) 65535 / 256,
         min (bodyCode.length + 4) 65535 % 256] ++ bodyCode).length + 1 := by
    simp only [List.length_append, List.length_cons, List.length_nil]
    omega
  rw [hlen2]
  have hsz2 : (pre ++ condCode ++
        [OP_CJUMPF, min (bodyCode.length + 4) 65535 / 256,
         min (bodyCode.length + 4) 65535 % 256] ++ bodyCode).length
      + 1 + 1 - pre.length = condCode.length + bodyCode.length + 5 := by
    simp only [List.length_append, List.length_cons, List.length_nil]
    omega
  rw [hsz2, ite_min]
  have hassoc2 : (pre ++ condCode ++
        [OP_CJUMPF, min (bodyCode.length + 4) 65535 / 256,
         min (bodyCode.length + 4) 65535 % 256] ++ bodyCode)
        ++ [OP_JUMP_BACK, 255, 255]
      = (pre ++ condCode ++
        [OP_CJUMPF, min (bodyCode.length + 4) 65535 / 256,
         min (bodyCode.length + 4) 65535 % 256] ++ bodyCode)
        ++ OP_JUMP_BACK :: 255 :: 255 :: ([] : List ℕ) := rfl
  rw [hassoc2, patchU16_mid]
  rw [patch_hi _ (by omega), and255_eq_mod]

/-- `statement_if` with an `else` (parser.c:742-761), first half: emit
the `OP_CJUMPF` placeholder, the then-branch, and the `OP_JUMP`
placeholder, then patch the `OP_CJUMPF` offset (lines 749-754: `jump`
is measured after the `OP_JUMP` emission). -/
def statement_if_else_fwd (pre thenCode : List ℕ) : List ℕ :=
  let ops1 := pre ++ [OP_CJUMPF, 255, 255]
  let start := ops1.length - 2
  let ops3 := (ops1 ++ thenCode) ++ [OP_JUMP, 255, 255]
  let jump := ops3.length - start - 1
  let size := if jump < 65535 then jump else 65535
  patchU16 ops3 start size

/-- `statement_if` with an `else` (parser.c:742-761), second half
(lines 755-761): compile the else-branch and patch the `OP_JUMP`
offset over it (`start2` is the placeholder position; patching does
not change the block length). -/
def statement_if_else (pre thenCode elseCode : List ℕ) (hadError : Bool) :
    List ℕ × Bool :=
  let ops4 := statement_if_else_fwd pre thenCode
  let start2 := ops4.length - 2
  let ops5 := ops4 ++ elseCode
  let jump2 := ops5.length - start2 - 1
  let size2 := if jump2 < 65535 then jump2 else 65535
  (patchU16 ops5 start2 size2, hadError)

lemma statement_if_else_fwd_spec (pre thenCode : List ℕ) :
    statement_if_else_fwd pre thenCode =
      pre ++ [OP_CJUMPF, min (thenCode.length + 4) 65535 / 256,
              min (thenCode.length + 4) 65535 % 256] ++ thenCode ++
        [OP_JUMP, 255, 255] := by
  unfold statement_if_else_fwd
  dsimp only
  have hstart : (pre ++ [OP_CJUMPF, 255, 255]).length - 2 = pre.length + 1 := by
    simp
  rw [hstart]
  have hjump : (((pre ++ [OP_CJUMPF, 255, 255]) ++ thenCode)
      ++ [OP_JUMP, 255, 255]).length - (pre.length + 1) - 1
      = thenCode.length + 4 := by
    simp only [List.length_append, List.length_cons, List.length_nil]
    omega
  rw [hjump, ite_min]
  have hassoc : ((pre ++ [OP_CJUMPF, 255, 255]) ++ thenCode) ++ [OP_JUMP, 255, 255]
      = pre ++ OP_CJUMPF :: 255 :: 255 :: (thenCode ++ [OP_JUMP, 255, 255]) := by
    simp
  rw [hassoc, patchU16_mid]
  rw [patch_hi _ (by omega), and255_eq_mod]
  simp

lemma statement_if_else_spec (pre thenCode elseCode : List ℕ) (he : Bool) :
    statement_if_else pre thenCode elseCode he =
      (pre ++ [OP_CJUMPF, min (thenCode.length + 4) 65535 / 256,
               min (thenCode.length + 4) 65535 % 256] ++ thenCode ++
        [OP_JUMP, min (elseCode.length + 1) 65535 / 256,
         min (elseCode.length + 1) 65535 % 256] ++ elseCode, he) := by
  unfold statement_if_else
  dsimp only
  rw [statement_if_else_fwd_spec]
  have hstart2 : (pre ++ [OP_CJUMPF, min (thenCode.length + 4) 65535 / 256,
        min (thenCode.length + 4) 65535 % 256] ++ thenCode
        ++ [OP_JUMP, 255, 255]).length - 2
      = ((pre ++ [OP_CJUMPF, min (thenCode.length + 4) 65535 / 256,
          min (thenCode.length + 4) 65535 % 256]) ++ thenCode).length + 1 := by
    simp only [List.length_append, List.length_cons, List.length_nil]
    omega
  rw [hstart2]
  have hjump2 : ((pre ++ [OP_CJUMPF, min (thenCode.length + 4) 65535 / 256,
        min (thenCode.length + 4) 65535 % 256] ++ thenCode
        ++ [OP_JUMP, 255, 255]) ++ elseCode).length
      - (((pre ++ [OP_CJUMPF, min (thenCode.length + 4) 65535 / 256,
          min (thenCode.length + 4) 65535 % 256]) ++ thenCode).length + 1) - 1
      = elseCode.length + 1 := by
    simp only [List.length_append, List.length_cons, List.length_nil]
    omega
  rw [hjump2, ite_min]
  have hassoc : (pre ++ [OP_CJUMPF, min (thenCode.length + 4) 65535 / 256,
        min (thenCode.length + 4) 65535 % 256] ++ thenCode
        ++ [OP_JUMP, 255, 255]) ++ elseCode
      = ((pre ++ [OP_CJUMPF, min (thenCode.length + 4) 65535 / 256,
          min (thenCode.length + 4) 65535 % 256]) ++ thenCode)
        ++ OP_JUMP :: 255 :: 255 :: elseCode := by
    simp
  rw [hassoc, patchU16_mid]
  rw [patch_hi _ (by omega), and255_eq_mod]
  simp

/-- `statement_for` with a conditional (parser.c:961-998), phase one:
after the initializer (`pre`) come the conditional code, the
`OP_CJUMPF` placeholder (line 976-977), the `OP_JUMP` placeholder over
the post-expression (line 979), the post-expression, and the back jump
to the conditional, whose operand `jsize = size - start + 2` is emitted
directly (lines 992-998). -/
def statement_for_head (pre condCode postCode : List ℕ) : List ℕ :=
  let start := pre.length
  let ops3 := (((pre ++ condCode) ++ [OP_CJUMPF, 255, 255])
    ++ [OP_JUMP, 255, 255]) ++ postCode
  let jsize := ops3.length - start + 2
  let size := if jsize < 65535 then jsize else 65535
  ops3 ++ [OP_JUMP_BACK, (size >>> 8) &&& 255, size &&& 255]

/-- `statement_for` with a conditional, phase two (parser.c:1000-1011,
`conditionalJump != -1` arm): patch the `OP_JUMP` at `postPos` with
`postJump = size - conditionalJump - 4`. -/
def statement_for_postpatch (pre condCode postCode : List ℕ) : List ℕ :=
  let conditionalJump := ((pre ++ condCode) ++ [OP_CJUMPF, 255, 255]).length - 2
  let postPos := (((pre ++ condCode) ++ [OP_CJUMPF, 255, 255])
    ++ [OP_JUMP, 255, 255]).length - 2
  let ops4 := statement_for_head pre condCode postCode
  let postJump := ops4.length - conditionalJump - 4
  let size2 := if postJump < 65535 then postJump else 65535
  patchU16 ops4 postPos size2

/-- `statement_for` with a conditional, phase three (parser.c:1013-1024):
compile the body and emit the back jump to the post-expression
(`jsize = end - postPos`). -/
def statement_for_body (pre condCode postCode bodyCode : List ℕ) : List ℕ :=
  let postPos := (((pre ++ condCode) ++ [OP_CJUMPF, 255, 255])
    ++ [OP_JUMP, 255, 255]).length - 2
  let ops5 := statement_for_postpatch pre condCode postCode ++ bodyCode
  let jsize := ops5.length - postPos
  let size := if jsize < 65535 then jsize else 65535
  ops5 ++ [OP_JUMP_BACK, (size >>> 8) &&& 255, size &&& 255]

/-- `statement_for` with a conditional, final phase (parser.c:1026-1033):
patch the `OP_CJUMPF` exit with `jump = size - conditionalJump - 1`.
No patch site calls `parse_error`, so `hadError` is threaded through. -/
def statement_for_emit (pre condCode postCode bodyCode : List ℕ)
    (hadError : Bool) : List ℕ × Bool :=
  let conditionalJump := ((pre ++ condCode) ++ [OP_CJUMPF, 255, 255]).length - 2
  let ops6 := statement_for_body pre condCode postCode bodyCode
  let jump := ops6.length - conditionalJump - 1
  let size3 := if jump < 65535 then jump else 65535
  (patchU16 ops6 conditionalJump size3, hadError)

lemma statement_for_head_spec (pre condCode postCode : List ℕ) :
    statement_for_head pre condCode postCode =
      pre ++ condCode ++ [OP_CJUMPF, 255, 255] ++ [OP_JUMP, 255, 255]
        ++ postCode ++
        [OP_JUMP_BACK,
         min (condCode.length + postCode.length + 8) 65535 / 256,
         min (condCode.length + postCode.length + 8) 65535 % 256] := by
  unfold statement_for_head
  dsimp only
  have hj : ((((pre ++ condCode) ++ [OP_CJUMPF, 255, 255])
      ++ [OP_JUMP, 255, 255]) ++ postCode).length - pre.length + 2
      = condCode.length + postCode.length + 8 := by
    simp only [List.length_append, List.length_cons, List.length_nil]
    omega
  rw [hj, ite_min]
  rw [patch_hi _ (by omega), and255_eq_mod]

lemma statement_for_postpatch_spec (pre condCode postCode : List ℕ) :
    statement_for_postpatch pre condCode postCode =
      pre ++ condCode ++ [OP_CJUMPF, 255, 255] ++
        [OP_JUMP, min (postCode.length + 4) 65535 / 256,
         min (postCode.length + 4) 65535 % 256] ++ postCode ++
        [OP_JUMP_BACK,
         min (condCode.length + postCode.length + 8) 65535 / 256,
         min (condCode.length + postCode.length + 8) 65535 % 256] := by
  unfold statement_for_postpatch
  dsimp only
  rw [statement_for_head_spec]
  have hpos : (((pre ++ condCode) ++ [OP_CJUMPF, 255, 255])
      ++ [OP_JUMP, 255, 255]).length - 2
      = (pre ++ condCode ++ [OP_CJUMPF, 255, 255] : List ℕ).length + 1 := by
    simp only [List.length_append, List.length_cons, List.length_nil]
    omega
  rw [hpos]
  have hpj : (pre ++ condCode ++ [OP_CJUMPF, 255, 255] ++ [OP_JUMP, 255, 255]
        ++ postCode ++
        [OP_JUMP_BACK,
         min (condCode.length + postCode.length + 8) 65535 / 256,
         min (condCode.length + postCode.length + 8) 65535 % 256]).length
      - (((pre ++ condCode) ++ [OP_CJUMPF, 255, 255]).length - 2) - 4
      = postCode.length + 4 := by
    simp only [List.length_append, List.length_cons, List.length_nil]
    omega
  rw [hpj, ite_min]
  have hassoc : pre ++ condCode ++ [OP_CJUMPF, 255, 255] ++ [OP_JUMP, 255, 255]
        ++ postCode ++
        [OP_JUMP_BACK,
         min (condCode.length + postCode.length + 8) 65535 / 256,
         min (condCode.length + postCode.length + 8) 65535 % 256]
      = (pre ++ condCode ++ [OP_CJUMPF, 255, 255])
        ++ OP_JUMP :: 255 :: 255 :: (postCode ++
        [OP_JUMP_BACK,
         min (condCode.length + postCode.length + 8) 65535 / 256,
         min (condCode.length + postCode.length + 8) 65535 % 256]) := by
    simp
  rw [hassoc, patchU16_mid]
  rw [patch_hi _ (by omega), and255_eq_mod]
  simp

lemma statement_for_body_spec (pre condCode postCode bodyCode : List ℕ) :
    statement_for_body pre condCode postCode bodyCode =
      pre ++ condCode ++ [OP_CJUMPF, 255, 255] ++
        [OP_JUMP, min (postCode.length + 4) 65535 / 256,
         min (postCode.length + 4) 65535 % 256] ++ postCode ++
        [OP_JUMP_BACK,
         min (condCode.length + postCode.length + 8) 65535 / 256,
         min (condCode.length + postCode.length + 8) 65535 % 256] ++
        bodyCode ++
        [OP_JUMP_BACK,
         min (postCode.length + bodyCode.length + 5) 65535 / 256,
         min (postCode.length + bodyCode.length + 5) 65535 % 256] := by
  unfold statement_for_body
  dsimp only
  rw [statement_for_postpatch_spec]
  have hj : ((pre ++ condCode ++ [OP_CJUMPF, 255, 255] ++
        [OP_JUMP, min (postCode.length + 4) 65535 / 256,
         min (postCode.length + 4) 65535 % 256] ++ postCode ++
        [OP_JUMP_BACK,
         min (condCode.length + postCode.length + 8) 65535 / 256,
         min (condCode.length + postCode.length + 8) 65535 % 256])
        ++ bodyCode).length
      - ((((pre ++ condCode) ++ [OP_CJUMPF, 255, 255])
        ++ [OP_JUMP, 255, 255]).length - 2)
      = postCode.length + bodyCode.length + 5 := by
    simp only [List.length_append, List.length_cons, List.length_nil]
    omega
  rw [hj, ite_min]
  rw [patch_hi _ (by omega), and255_eq_mod]

lemma statement_for_emit_spec (pre condCode postCode bodyCode : List ℕ)
    (he : Bool) :
    statement_for_emit pre condCode postCode bodyCode he =
      (pre ++ condCode ++
        [OP_CJUMPF,
         min (postCode.length + bodyCode.length + 10) 65535 / 256,
         min (postCode.length + bodyCode.length + 10) 65535 % 256] ++
        [OP_JUMP, min (postCode.length + 4) 65535 / 256,
         min (postCode.length + 4) 65535 % 256] ++ postCode ++
        [OP_JUMP_BACK,
         min (condCode.length + postCode.length + 8) 65535 / 256,
         min (condCode.length + postCode.length + 8) 65535 % 256] ++
        bodyCode ++
        [OP_JUMP_BACK,
         min (postCode.length + bodyCode.length + 5) 65535 / 256,
         min (postCode.length + bodyCode.length + 5) 65535 % 256], he) := by
  unfold statement_for_emit
  dsimp only
  rw [statement_for_body_spec]
  have hpos : ((pre ++ condCode) ++ [OP_CJUMPF, 255, 255]).length - 2
      = (pre ++ condCode : List ℕ).length + 1 := by
    simp only [List.length_append, List.length_cons, List.length_nil]
    omega
  rw [hpos]
  have hj : (pre ++ condCode ++ [OP_CJUMPF, 255, 255] ++
        [OP_JUMP, min (postCode.length + 4) 65535 / 256,
         min (postCode.length + 4) 65535 % 256] ++ postCode ++
        [OP_JUMP_BACK,
         min (condCode.length + postCode.length + 8) 65535 / 256,
         min (condCode.length + postCode.length + 8) 65535 % 256] ++
        bodyCode ++
        [OP_JUMP_BACK,
         min (postCode.length + bodyCode.length + 5) 65535 / 256,
         min (postCode.length + bodyCode.length + 5) 65535 % 256] :
        List ℕ).length
      - ((pre ++ condCode : List ℕ).length + 1) - 1
      = postCode.length + bodyCode.length + 10 := by
    simp only [List.length_append, List.length_cons, List.length_nil]
    omega
  rw [hj, ite_min]
  have hassoc : (pre ++ condCode ++ [OP_CJUMPF, 255, 255] ++
        [OP_JUMP, min (postCode.length + 4) 65535 / 256,
         min (postCode.length + 4) 65535 % 256] ++ postCode ++
        [OP_JUMP_BACK,
         min (condCode.length + postCode.length + 8) 65535 / 256,
         min (condCode.length + postCode.length + 8) 65535 % 256] ++
        bodyCode ++
        [OP_JUMP_BACK,
         min (postCode.length + bodyCode.length + 5) 65535 / 256,
         min (postCode.length + bodyCode.length + 5) 65535 % 256] :
        List ℕ)
      = (pre ++ condCode)
        ++ OP_CJUMPF :: 255 :: 255 ::
        ([OP_JUMP, min (postCode.length + 4) 65535 / 256,
          min (postCode.length + 4) 65535 % 256] ++ postCode ++
         [OP_JUMP_BACK,
          min (condCode.length + postCode.length + 8) 65535 / 256,
          min (condCode.length + postCode.length + 8) 65535 % 256] ++
         bodyCode ++
         [OP_JUMP_BACK,
          min (postCode.length + bodyCode.length + 5) 65535 / 256,
          min (postCode.length + bodyCode.length + 5) 65535 % 256]) := by
    simp
  rw [hassoc, patchU16_mid]
  rw [patch_hi _ (by omega), and255_eq_mod]
  simp

/-- `statement_for` without a conditional (parser.c:965-966: the
`match(TOKEN_SEMICOLON)` arm leaves `conditionalJump == -1` and emits
no `OP_CJUMPF`), phase one: the `OP_JUMP` placeholder over the
post-expression, the post-expression, and the back jump to `start`
(parser.c:992-998). -/
def statement_for_nc_head (pre postCode : List ℕ) : List ℕ :=
  let start := pre.length
  let ops2 := (pre ++ [OP_JUMP, 255, 255]) ++ postCode
  let jsize := ops2.length - start + 2
  let size := if jsize < 65535 then jsize else 65535
  ops2 ++ [OP_JUMP_BACK, (size >>> 8) &&& 255, size &&& 255]

/-- `statement_for` without a conditional, phase two (parser.c:
1000-1011, `conditionalJump == -1` arm): patch the `OP_JUMP` at
`postPos` with `postJump = size - postPos - 1`. -/
def statement_for_nc_postpatch (pre postCode : List ℕ) : List ℕ :=
  let postPos := (pre ++ [OP_JUMP, 255, 255]).length - 2
  let ops3 := statement_for_nc_head pre postCode
  let postJump := ops3.length - postPos - 1
  let size2 := if postJump < 65535 then postJump else 65535
  patchU16 ops3 postPos size2

/-- `statement_for` without a conditional, final phase (parser.c:
1013-1024; the `conditionalJump != -1` patch at 1026-1033 is skipped):
compile the body and emit the back jump to the post-expression. -/
def statement_for_nc_emit (pre postCode bodyCode : List ℕ)
    (hadError : Bool) : List ℕ × Bool :=
  let postPos := (pre ++ [OP_JUMP, 255, 255]).length - 2
  let ops4 := statement_for_nc_postpatch pre postCode ++ bodyCode
  let jsize := ops4.length - postPos
  let size := if jsize < 65535 then jsize else 65535
  (ops4 ++ [OP_JUMP_BACK, (size >>> 8) &&& 255, size &&& 255], hadError)

lemma statement_for_nc_head_spec (pre postCode : List ℕ) :
    statement_for_nc_head pre postCode =
      pre ++ [OP_JUMP, 255, 255] ++ postCode ++
        [OP_JUMP_BACK, min (postCode.length + 5) 65535 / 256,
         min (postCode.length + 5) 65535 % 256] := by
  unfold statement_for_nc_head
  dsimp only
  have hj : ((pre ++ [OP_JUMP, 255, 255]) ++ postCode).length - pre.length + 2
      = postCode.length + 5 := by
    simp only [List.length_append, List.length_cons, List.length_nil]
    omega
  rw [hj, ite_min]
  rw [patch_hi _ (by omega), and255_eq_mod]

lemma statement_for_nc_postpatch_spec (pre postCode : List ℕ) :
    statement_for_nc_postpatch pre postCode =
      pre ++ [OP_JUMP, min (postCode.length + 4) 65535 / 256,
              min (postCode.length + 4) 65535 % 256] ++ postCode ++
        [OP_JUMP_BACK, min (postCode.length + 5) 65535 / 256,
         min (postCode.length + 5) 65535 % 256] := by
  unfold statement_for_nc_postpatch
  dsimp only
  rw [statement_for_nc_head_spec]
  have hpos : (pre ++ [OP_JUMP, 255, 255]).length - 2 = pre.length + 1 := by
    simp
  rw [hpos]
  have hpj : (pre ++ [OP_JUMP, 255, 255] ++ postCode ++
        [OP_JUMP_BACK, min (postCode.length + 5) 65535 / 256,
         min (postCode.length + 5) 65535 % 256] : List ℕ).length
      - (pre.length + 1) - 1 = postCode.length + 4 := by
    simp only [List.length_append, List.length_cons, List.length_nil]
    omega
  rw [hpj, ite_min]
  have hassoc : (pre ++ [OP_JUMP, 255, 255] ++ postCode ++
        [OP_JUMP_BACK, min (postCode.length + 5) 65535 / 256,
         min (postCode.length + 5) 65535 % 256] : List ℕ)
      = pre ++ OP_JUMP :: 255 :: 255 :: (postCode ++
        [OP_JUMP_BACK, min (postCode.length + 5) 65535 / 256,
         min (postCode.length + 5) 65535 % 256]) := by
    simp
  rw [hassoc, patchU16_mid]
  rw [patch_hi _ (by omega), and255_eq_mod]
  simp

lemma statement_for_nc_emit_spec (pre postCode bodyCode : List ℕ)
    (he : Bool) :
    statement_for_nc_emit pre postCode bodyCode he =
      (pre ++ [OP_JUMP, min (postCode.length + 4) 65535 / 256,
               min (postCode.length + 4) 65535 % 256] ++ postCode ++
        [OP_JUMP_BACK, min (postCode.length + 5) 65535 / 256,
         min (postCode.length + 5) 65535 % 256] ++ bodyCode ++
        [OP_JUMP_BACK, min (postCode.length + bodyCode.length + 5) 65535 / 256,
         min (postCode.length + bodyCode.length + 5) 65535 % 256], he) := by
  unfold statement_for_nc_emit
  dsimp only
  rw [statement_for_nc_postpatch_spec]
  have hpos : (pre ++ [OP_JUMP, 255, 255]).length - 2 = pre.length + 1 := by
    simp
  rw [hpos]
  have hj : ((pre ++ [OP_JUMP, min (postCode.length + 4) 65535 / 256,
        min (postCode.length + 4) 65535 % 256] ++ postCode ++
        [OP_JUMP_BACK, min (postCode.length + 5) 65535 / 256,
         min (postCode.length + 5) 65535 % 256]) ++ bodyCode).length
      - (pre.length + 1) = postCode.length + bodyCode.length + 5 := by
    simp only [List.length_append, List.length_cons, List.length_nil]
    omega
  rw [hj, ite_min]
  rw [patch_hi _ (by omega), and255_eq_mod]

/-- C4 (corrected): every forward jump of `statement_if` (both the
no-`else` and `else` forms), `statement_while` and `statement_for`
(with and without a conditional) *is* back-patched before the
statement finishes, but a span of 65535 bytes or more is *silently
saturated* at `u16::MAX`: the patched operand bytes (and the
`OP_JUMP_BACK` operands, emitted with the same idiom) encode
`min(span, 65535)` and the `had_error` flag is never set by this code
— there is no fatal compile error on overflow. -/
theorem c4_jump_patch_amended :
    (∀ (pre thenCode : List ℕ) (he : Bool),
      statement_if_noelse pre thenCode he =
        (pre ++ [OP_CJUMPF, min (thenCode.length + 1) 65535 / 256,
                 min (thenCode.length + 1) 65535 % 256] ++ thenCode, he)) ∧
    (∀ (pre thenCode elseCode : List ℕ) (he : Bool),
      statement_if_else pre thenCode elseCode he =
        (pre ++ [OP_CJUMPF, min (thenCode.length + 4) 65535 / 256,
                 min (thenCode.length + 4) 65535 % 256] ++ thenCode ++
          [OP_JUMP, min (elseCode.length + 1) 65535 / 256,
           min (elseCode.length + 1) 65535 % 256] ++ elseCode, he)) ∧
    (∀ (pre condCode bodyCode : List ℕ) (he : Bool),
      statement_while_emit pre condCode bodyCode he =
        (pre ++ condCode ++
          [OP_CJUMPF, min (bodyCode.length + 4) 65535 / 256,
           min (bodyCode.length + 4) 65535 % 256] ++ bodyCode ++
          [OP_JUMP_BACK, min (condCode.length + bodyCode.length + 5) 65535 / 256,
           min (condCode.length + bodyCode.length + 5) 65535 % 256], he)) ∧
    (∀ (pre condCode postCode bodyCode : List ℕ) (he : Bool),
      statement_for_emit pre condCode postCode bodyCode he =
        (pre ++ condCode ++
          [OP_CJUMPF,
           min (postCode.length + bodyCode.length + 10) 65535 / 256,
           min (postCode.length + bodyCode.length + 10) 65535 % 256] ++
          [OP_JUMP, min (postCode.length + 4) 65535 / 256,
           min (postCode.length + 4) 65535 % 256] ++ postCode ++
          [OP_JUMP_BACK,
           min (condCode.length + postCode.length + 8) 65535 / 256,
           min (condCode.length + postCode.length + 8) 65535 % 256] ++
          bodyCode ++
          [OP_JUMP_BACK,
           min (postCode.length + bodyCode.length + 5) 65535 / 256,
           min (postCode.length + bodyCode.length + 5) 65535 % 256], he)) ∧
    (∀ (pre postCode bodyCode : List ℕ) (he : Bool),
      statement_for_nc_emit pre postCode bodyCode he =
        (pre ++ [OP_JUMP, min (postCode.length + 4) 65535 / 256,
                 min (postCode.length + 4) 65535 % 256] ++ postCode ++
          [OP_JUMP_BACK, min (postCode.length + 5) 65535 / 256,
           min (postCode.length + 5) 65535 % 256] ++ bodyCode ++
          [OP_JUMP_BACK,
           min (postCode.length + bodyCode.length + 5) 65535 / 256,
           min (postCode.length + bodyCode.length + 5) 65535 % 256], he)) :=
  ⟨statement_if_noelse_spec, statement_if_else_spec, statement_while_emit_spec,
   statement_for_emit_spec, statement_for_nc_emit_spec⟩

/-- C4 counterexample: an `if` whose branch compiles to 65535 bytes has
a true forward span of 65536 bytes; the compiler patches the operand
bytes to `0xFF 0xFF` (the saturated 65535) and leaves the error flag
false — compilation does not fail, contradicting the claimed fatal
error. -/
theorem c4_counterexample :
    (statement_if_noelse [] (List.replicate 65535 OP_NOP) false).1
      = [OP_CJUMPF, 255, 255] ++ List.replicate 65535 OP_NOP ∧
    (statement_if_noelse [] (List.replicate 65535 OP_NOP) false).2 = false ∧
    (List.replicate 65535 OP_NOP : List ℕ).length + 1 = 65536 ∧
    (255 * 256 + 255 : ℕ) ≠ 65536 := by
  refine ⟨?_, ?_, by rw [List.length_replicate], by norm_num⟩
  · rw [statement_if_noelse_spec]
    norm_num
  · rw [statement_if_noelse_spec]

/-! ## Hash table (hash_table.h / hash_table.c)

Keys are NUL-terminated C strings, modelled as the list of their bytes
(without the terminator); stored values are `Value`s (the C stores
`Value*` clones — the pointer indirection carries no information the
claims need).  `Entry { char* key; Value* value; }` becomes a pair of
`Option`s, `none` being the C `NULL`.  The probe loop of `findEntry`
can run forever on a full table, so it is modelled with fuel equal to
the capacity: the probe position repeats with period `capacity`, and
the loop's stop condition depends only on the (static) entries, so the
C loop terminates iff it stops within `capacity` probes; `none` models
the non-terminating run. -/

abbrev Key := List ℕ

structure HEntry where
  key : Option Key
  value : Option Value
deriving DecidableEq, Repr

def emptyEntry : HEntry := ⟨none, none⟩

structure HashTable where
  count : ℕ
  capacity : ℕ
  entries : List HEntry
deriving DecidableEq, Repr

/-- FNV-1a (hash_table.h:42-49), 32-bit arithmetic. -/
def hashStep (h b : ℕ) : ℕ := ((h ^^^ b) * 16777619) % 4294967296

/-- `hashString(key, strlen(key))`. -/
def hashString (k : Key) : ℕ := k.foldl hashStep 2166136261

/-- `strcmp(a, b) == 0` for two NUL-terminated strings given as their
byte lists. -/
def strcmpIsZero : Key → Key → Bool
  | [], [] => true
  | [], _ :: _ => false
  | _ :: _, [] => false
  | x :: xs, y :: ys =>
    if x = y then (if x = 0 then true else strcmpIsZero xs ys) else false

/-- The loop of `findEntry` (hash_table.c:52-67): `idx` is the current
probe position, `tomb` the first tombstone seen, and the fuel bounds
the number of probes (period `capacity`). -/
def findEntryGo (entries : List HEntry) (capacity : ℕ) (key : Key) :
    ℕ → ℕ → Option ℕ → Option ℕ
  | _, 0, _ => none
  | idx, fuel + 1, tomb =>
    let e := entries.getD idx emptyEntry
    match e.key with
    | none =>
      match e.value with
      | none => some (tomb.getD idx)
      | some _ =>
        findEntryGo entries capacity key ((idx + 1) &&& (capacity - 1)) fuel
          (some (tomb.getD idx))
    | some k' =>
      if strcmpIsZero k' key then some idx
      else findEntryGo entries capacity key ((idx + 1) &&& (capacity - 1)) fuel tomb

/-- `findEntry` (hash_table.c:48-70): start at
`HASH_STRING(key) & (capacity - 1)`; the returned index plays the role
of the returned `Entry*`. -/
def findEntry (entries : List HEntry) (capacity : ℕ) (key : Key) : Option ℕ :=
  findEntryGo entries capacity key (hashString key &&& (capacity - 1))
    capacity none

/-- One iteration of the reinsertion loop of `adjustCapacity`
(hash_table.c:87-96): skip unkeyed entries, otherwise find the key's
slot in the new array, copy key and value, bump the count. -/
def adjustStep (capacity : ℕ) (acc : Option (List HEntry × ℕ))
    (e : HEntry) : Option (List HEntry × ℕ) :=
  acc.bind fun st =>
    match e.key with
    | none => some st
    | some k =>
      (findEntry st.1 capacity k).map fun i =>
        (st.1.set i ⟨some k, e.value⟩, st.2 + 1)

/-- `adjustCapacity` (hash_table.c:79-102): allocate a zeroed entry
array, reinsert every keyed entry, recount.  `none` propagates a
non-terminating inner `findEntry` (impossible for reachable tables). -/
def adjustCapacity (t : HashTable) (capacity : ℕ) : Option HashTable :=
  let init : Option (List HEntry × ℕ) :=
    some (List.replicate capacity emptyEntry, 0)
  (t.entries.foldl (adjustStep capacity) init).map fun st =>
    ⟨st.2, capacity, st.1⟩

/-- `hash_table_get` (hash_table.c:112-121).  Outer `none`: the probe
loop diverges; `some none`: the C returns `NULL` (count 0, or an
unkeyed entry); `some (some v)`: the entry's value. -/
def hash_table_get (t : HashTable) (key : Key) : Option (Option Value) :=
  if t.count = 0 then some none
  else
    (findEntry t.entries t.capacity key).map fun i =>
      let e := t.entries.getD i emptyEntry
      match e.key with
      | none => none
      | some _ => e.value

/-- `hash_table_set` (hash_table.c:152-172).  The load test
`count + 1 > capacity * 0.75` is exact double arithmetic, equivalent to
`3 * capacity < 4 * (count + 1)`. -/
def hash_table_set (t : HashTable) (key : Key) (v : Value) :
    Option (HashTable × Bool) :=
  let grown : Option HashTable :=
    if 3 * t.capacity < 4 * (t.count + 1) then
      adjustCapacity t (if t.capacity < 8 then 8 else t.capacity * 2)
    else some t
  grown.bind fun t1 =>
    (findEntry t1.entries t1.capacity key).map fun i =>
      let e := t1.entries.getD i emptyEntry
      let isNewKey := e.key = none
      let count' := if isNewKey ∧ e.value = none then t1.count + 1 else t1.count
      let e' : HEntry := ⟨if isNewKey then some key else e.key, some v⟩
      ((⟨count', t1.capacity, t1.entries.set i e'⟩ : HashTable),
       decide isNewKey)

/-! ### Well-formedness and basic facts -/

/-- A key that can come from a C string: no NUL byte, byte-valued. -/
def KeyOK (k : Key) : Prop := ∀ b ∈ k, b ≠ 0 ∧ b < 256

/-- A probe stop: an unkeyed slot or a key match.  The probe loop's
control flow depends on the entries only through this predicate. -/
def stopB (entries : List HEntry) (key : Key) (i : ℕ) : Bool :=
  match (entries.getD i emptyEntry).key with
  | none => true
  | some k' => strcmpIsZero k' key

/-- No tombstones: an unkeyed entry has no value.  (`hash_table_delete`
is the only producer of tombstones and none of the claims exercise
it.) -/
def NoTomb (entries : List HEntry) : Prop :=
  ∀ e ∈ entries, e.key = none → e.value = none

/-- The pure first-stop scan the probe loop performs under `NoTomb`. -/
def firstStop (entries : List HEntry) (cap : ℕ) (key : Key) :
    ℕ → ℕ → Option ℕ
  | _, 0 => none
  | idx, fuel + 1 =>
    if stopB entries key idx then some idx
    else firstStop entries cap key ((idx + 1) % cap) fuel

lemma strcmpIsZero_refl (k : Key) : strcmpIsZero k k = true := by
  induction k with
  | nil => rfl
  | cons b bs ih =>
    unfold strcmpIsZero
    rw [if_pos rfl]
    split
    · rfl
    · exact ih

lemma strcmpIsZero_iff (a b : Key) (ha : KeyOK a) :
    strcmpIsZero a b = true ↔ a = b := by
  induction a generalizing b with
  | nil => cases b <;> simp [strcmpIsZero]
  | cons x xs ih =>
    cases b with
    | nil => simp [strcmpIsZero]
    | cons y ys =>
      have hx : x ≠ 0 := (ha x (by simp)).1
      unfold strcmpIsZero
      by_cases hxy : x = y
      · rw [if_pos hxy, if_neg hx]
        rw [ih ys fun b hb => ha b (by simp [hb])]
        simp [hxy]
      · rw [if_neg hxy]
        simp [hxy]

/-- Under `NoTomb` (and a power-of-two capacity) the probe loop is the
pure first-stop scan; the tombstone accumulator stays `none`. -/
lemma findEntryGo_eq_firstStop (entries : List HEntry) (m : ℕ) (key : Key)
    (hnt : NoTomb entries) :
    ∀ (fuel idx : ℕ),
      findEntryGo entries (2 ^ m) key idx fuel none =
        firstStop entries (2 ^ m) key idx fuel := by
  intro fuel
  induction fuel with
  | zero => intro idx; rfl
  | succ fuel ih =>
    intro idx
    rw [findEntryGo, firstStop]
    cases hk : (entries.getD idx emptyEntry).key with
    | none =>
      have hv : (entries.getD idx emptyEntry).value = none := by
        by_cases hin : idx < entries.length
        · refine hnt _ ?_ hk
          rw [List.getD_eq_getElem entries emptyEntry hin]
          exact entries.getElem_mem hin
        · rw [List.getD_eq_default _ _ (by omega)]; rfl
      have hs : stopB entries key idx = true := by
        unfold stopB
        rw [hk]
      simp only [hk, hv, hs, if_true, Option.getD_none]
    | some k' =>
      have hs : stopB entries key idx = strcmpIsZero k' key := by
        unfold stopB
        rw [hk]
      simp only [hk, hs]
      cases hc : strcmpIsZero k' key with
      | true => simp only [if_true, if_pos rfl]
      | false =>
        simp only [Bool.false_eq_true, if_false]
        rw [Nat.and_pow_two_sub_one_eq_mod]
        exact ih _

/-! ### Probe-scan lemmas -/

/-- The key stored at slot `i`. -/
def keyAtE (es : List HEntry) (i : ℕ) : Option Key :=
  (es.getD i emptyEntry).key

lemma getD_mem (es : List HEntry) (i : ℕ) (h : i < es.length) :
    es.getD i emptyEntry ∈ es := by
  rw [List.getD_eq_getElem es emptyEntry h]
  exact es.getElem_mem h

lemma stopB_of_none {es : List HEntry} {key : Key} {i : ℕ}
    (h : keyAtE es i = none) : stopB es key i = true := by
  unfold stopB
  unfold keyAtE at h
  rw [h]

lemma stopB_of_self {es : List HEntry} {key : Key} {i : ℕ}
    (h : keyAtE es i = some key) : stopB es key i = true := by
  unfold stopB
  unfold keyAtE at h
  rw [h]
  exact strcmpIsZero_refl key

lemma stopB_of_other {es : List HEntry} {key k' : Key} {i : ℕ}
    (h : keyAtE es i = some k') (hok : KeyOK k') (hne : k' ≠ key) :
    stopB es key i = false := by
  unfold stopB
  unfold keyAtE at h
  rw [h]
  rw [Bool.eq_false_iff]
  intro hc
  exact hne ((strcmpIsZero_iff k' key hok).mp hc)

lemma stopB_true_cases {es : List HEntry} {key : Key} {i : ℕ}
    (hs : stopB es key i = true)
    (hok : ∀ k', keyAtE es i = some k' → KeyOK k') :
    keyAtE es i = none ∨ keyAtE es i = some key := by
  unfold stopB at hs
  unfold keyAtE at hok ⊢
  cases hk : (es.getD i emptyEntry).key with
  | none => exact Or.inl rfl
  | some k' =>
    rw [hk] at hs
    right
    rw [(strcmpIsZero_iff k' key (hok k' hk)).mp hs]

/-- The probe sequence visits each residue exactly once per period. -/
lemma probe_inj {cap idx u t : ℕ} (hu : u < cap) (ht : t < cap)
    (h : (idx + u) % cap = (idx + t) % cap) : u = t := by
  have h1 : Nat.ModEq cap (idx + u) (idx + t) := h
  have h2 : Nat.ModEq cap u t := Nat.ModEq.add_left_cancel' idx h1
  have h3 : u % cap = t % cap := h2
  rwa [Nat.mod_eq_of_lt hu, Nat.mod_eq_of_lt ht] at h3

/-- `firstStop` returns the probe position of the least stop. -/
lemma firstStop_eq (entries : List HEntry) (cap : ℕ) (key : Key)
    (hcap : 0 < cap) :
    ∀ (fuel t idx : ℕ), idx < cap → t < fuel →
      stopB entries key ((idx + t) % cap) = true →
      (∀ u < t, stopB entries key ((idx + u) % cap) = false) →
      firstStop entries cap key idx fuel = some ((idx + t) % cap) := by
  intro fuel
  induction fuel with
  | zero => intro t idx _ ht; omega
  | succ fuel ih =>
    intro t idx hidx htf hstop hmin
    rw [firstStop]
    cases t with
    | zero =>
      have hid : (idx + 0) % cap = idx := by
        rw [Nat.add_zero, Nat.mod_eq_of_lt hidx]
      rw [hid] at hstop ⊢
      rw [if_pos hstop]
    | succ t =>
      have h0 : stopB entries key idx = false := by
        have := hmin 0 (by omega)
        rwa [Nat.add_zero, Nat.mod_eq_of_lt hidx] at this
      rw [if_neg (by rw [h0]; exact Bool.false_ne_true)]
      have hshift : ∀ u : ℕ, ((idx + 1) % cap + u) % cap = (idx + (u + 1)) % cap := by
        intro u
        rw [Nat.mod_add_mod]
        congr 1
        omega
      have hgoal : ((idx + 1) % cap + t) % cap = (idx + (t + 1)) % cap := hshift t
      rw [← hgoal] at hstop
      have := ih t ((idx + 1) % cap) (Nat.mod_lt _ hcap) (by omega) hstop
        (fun u hu => by rw [hshift u]; exact hmin (u + 1) (by omega))
      rw [this, hgoal]

/-- Any `firstStop` hit is a stop reached along the probe path. -/
lemma firstStop_char (entries : List HEntry) (cap : ℕ) (key : Key)
    (hcap : 0 < cap) :
    ∀ (fuel idx r : ℕ), idx < cap →
      firstStop entries cap key idx fuel = some r →
      ∃ t < fuel, r = (idx + t) % cap ∧ stopB entries key r = true ∧
        ∀ u < t, stopB entries key ((idx + u) % cap) = false := by
  intro fuel
  induction fuel with
  | zero => intro idx r _ h; simp [firstStop] at h
  | succ fuel ih =>
    intro idx r hidx h
    rw [firstStop] at h
    cases hs : stopB entries key idx with
    | true =>
      rw [if_pos hs] at h
      cases h
      refine ⟨0, by omega, ?_, hs, ?_⟩
      · rw [Nat.add_zero, Nat.mod_eq_of_lt hidx]
      · intro u hu; omega
    | false =>
      rw [if_neg (by rw [hs]; exact Bool.false_ne_true)] at h
      obtain ⟨t, htf, hr, hstop, hmin⟩ := ih ((idx + 1) % cap) r (Nat.mod_lt _ hcap) h
      have hshift : ∀ u : ℕ, ((idx + 1) % cap + u) % cap = (idx + (u + 1)) % cap := by
        intro u
        rw [Nat.mod_add_mod]
        congr 1
        omega
      refine ⟨t + 1, by omega, by rw [← hshift t]; exact hr, hstop, ?_⟩
      intro u hu
      cases u with
      | zero => rwa [Nat.add_zero, Nat.mod_eq_of_lt hidx]
      | succ u => rw [← hshift u]; exact hmin u (by omega)

/-- A stop exists within one period whenever some slot is unkeyed. -/
lemma exists_stop_of_empty (es : List HEntry) (cap : ℕ) (key : Key)
    (idx : ℕ) (hcap : 0 < cap) (hidx : idx < cap) (j : ℕ) (hj : j < cap)
    (hempty : keyAtE es j = none) :
    ∃ t < cap, stopB es key ((idx + t) % cap) = true := by
  refine ⟨(cap + j - idx) % cap, Nat.mod_lt _ hcap, ?_⟩
  have h1 : (idx + (cap + j - idx) % cap) % cap = j := by
    rw [Nat.add_mod_mod]
    have h2 : idx + (cap + j - idx) = cap + j := by omega
    rw [h2, Nat.add_mod_left, Nat.mod_eq_of_lt hj]
  rw [h1]
  exact stopB_of_none hempty

/-! ### Table invariants -/

/-- Number of keyed slots. -/
def occCount (es : List HEntry) : ℕ :=
  (es.filter (fun e => e.key ≠ none)).length

/-- All stored keys come from C strings. -/
def KeysOK (es : List HEntry) : Prop :=
  ∀ e ∈ es, ∀ k, e.key = some k → KeyOK k

/-- Every stored key is found at its own slot — the probe-consistency
invariant linear probing maintains. -/
def Findable (es : List HEntry) (cap : ℕ) : Prop :=
  ∀ i < cap, ∀ k, keyAtE es i = some k → findEntry es cap k = some i

/-- Key `k` occurs in the table. -/
def memE (es : List HEntry) (k : Key) : Prop :=
  ∃ i, i < es.length ∧ keyAtE es i = some k

/-- Key `k` is bound to value pointer `w` at some slot. -/
def bindsE (es : List HEntry) (k : Key) (w : Option Value) : Prop :=
  ∃ i, i < es.length ∧ es.getD i emptyEntry = ⟨some k, w⟩

/-- Well-formedness of every table reachable through `hash_table_init`
and `hash_table_set` (no deletions, hence no tombstones). -/
structure WF (t : HashTable) : Prop where
  pow : t.capacity = 0 ∨ ∃ m, 3 ≤ m ∧ t.capacity = 2 ^ m
  len : t.entries.length = t.capacity
  load : 4 * t.count ≤ 3 * t.capacity
  cnt : t.count = occCount t.entries
  ntomb : NoTomb t.entries
  keysok : KeysOK t.entries
  find : Findable t.entries t.capacity

lemma keyAtE_set_self (es : List HEntry) (i : ℕ) (e' : HEntry)
    (h : i < es.length) : keyAtE (es.set i e') i = e'.key := by
  unfold keyAtE
  rw [List.getD_eq_getElem?_getD, List.getElem?_set_self h]
  rfl

lemma getD_set_ne (es : List HEntry) (i j : ℕ) (e' : HEntry) (h : j ≠ i) :
    (es.set i e').getD j emptyEntry = es.getD j emptyEntry := by
  rw [List.getD_eq_getElem?_getD, List.getElem?_set_ne (fun hc => h hc.symm),
    ← List.getD_eq_getElem?_getD]

lemma keyAtE_set_ne (es : List HEntry) (i j : ℕ) (e' : HEntry) (h : j ≠ i) :
    keyAtE (es.set i e') j = keyAtE es j := by
  unfold keyAtE
  rw [getD_set_ne es i j e' h]

lemma stopB_set_ne (es : List HEntry) (i j : ℕ) (e' : HEntry) (key : Key)
    (h : j ≠ i) : stopB (es.set i e') key j = stopB es key j := by
  unfold stopB
  rw [getD_set_ne es i j e' h]

lemma NoTomb_set (es : List HEntry) (i : ℕ) (e' : HEntry)
    (hnt : NoTomb es) (he : e'.key ≠ none ∨ e'.value = none) :
    NoTomb (es.set i e') := by
  intro e he' hk
  rcases List.mem_or_eq_of_mem_set he' with h | h
  · exact hnt e h hk
  · subst h
    rcases he with h2 | h2
    · exact absurd hk h2
    · exact h2

lemma KeysOK_set (es : List HEntry) (i : ℕ) (e' : HEntry)
    (hok : KeysOK es) (he : ∀ k, e'.key = some k → KeyOK k) :
    KeysOK (es.set i e') := by
  intro e he' k hk
  rcases List.mem_or_eq_of_mem_set he' with h | h
  · exact hok e h k hk
  · subst h; exact he k hk

lemma keysok_at (es : List HEntry) (hok : KeysOK es) (i : ℕ) (k : Key)
    (hk : keyAtE es i = some k) : KeyOK k := by
  by_cases hlt : i < es.length
  · exact hok _ (getD_mem es i hlt) k hk
  · unfold keyAtE at hk
    rw [List.getD_eq_default _ _ (by omega)] at hk
    cases hk

lemma occCount_pos_of_mem (es : List HEntry) (k : Key)
    (h : memE es k) : 0 < occCount es := by
  obtain ⟨i, hi, hk⟩ := h
  unfold occCount
  have hmem : es.getD i emptyEntry ∈ es := getD_mem es i hi
  have hkey : (es.getD i emptyEntry).key ≠ none := by
    unfold keyAtE at hk
    rw [hk]
    simp
  have : es.getD i emptyEntry ∈ es.filter (fun e => e.key ≠ none) := by
    rw [List.mem_filter]
    exact ⟨hmem, by simpa using hkey⟩
  exact List.length_pos.mpr (fun hnil => by rw [hnil] at this; cases this)

lemma exists_empty_slot (es : List HEntry) (h : occCount es < es.length) :
    ∃ j, j < es.length ∧ keyAtE es j = none := by
  induction es with
  | nil => simp [occCount] at h
  | cons e tl ih =>
    cases hk : e.key with
    | none => exact ⟨0, by simp, by unfold keyAtE; simp [hk]⟩
    | some k =>
      have hocc : occCount (e :: tl) = occCount tl + 1 := by
        unfold occCount
        rw [List.filter_cons, if_pos (by simp [hk])]
        simp
      rw [hocc, List.length_cons] at h
      obtain ⟨j, hj, hkey⟩ := ih (by omega)
      refine ⟨j + 1, by simp; omega, ?_⟩
      unfold keyAtE at hkey ⊢
      simpa using hkey

lemma occCount_set (es : List HEntry) :
    ∀ (i : ℕ), i < es.length → ∀ (e' : HEntry),
    occCount (es.set i e') +
        (if (es.getD i emptyEntry).key ≠ none then 1 else 0)
      = occCount es + (if e'.key ≠ none then 1 else 0) := by
  induction es with
  | nil => intro i hi; simp at hi
  | cons e tl ih =>
    intro i hi e'
    cases i with
    | zero =>
      simp only [List.set, List.getD_cons_zero]
      unfold occCount
      rw [List.filter_cons, List.filter_cons]
      split <;> split <;> simp_all <;> omega
    | succ i =>
      simp only [List.set, List.getD_cons_succ]
      have := ih i (by simp at hi; omega) e'
      unfold occCount at this ⊢
      rw [List.filter_cons, List.filter_cons]
      split <;> simp_all <;> omega

/-! ### `findEntry` under the invariants -/

lemma findEntry_eq_firstStop (es : List HEntry) (m : ℕ) (key : Key)
    (hnt : NoTomb es) :
    findEntry es (2 ^ m) key =
      firstStop es (2 ^ m) key (hashString key % 2 ^ m) (2 ^ m) := by
  unfold findEntry
  rw [Nat.and_pow_two_sub_one_eq_mod]
  exact findEntryGo_eq_firstStop es m key hnt (2 ^ m) _

lemma firstStop_of_exists (entries : List HEntry) (cap : ℕ) (key : Key)
    (hcap : 0 < cap) :
    ∀ (fuel idx : ℕ), idx < cap →
      (∃ t, t < fuel ∧ stopB entries key ((idx + t) % cap) = true) →
      ∃ r, firstStop entries cap key idx fuel = some r := by
  intro fuel
  induction fuel with
  | zero => intro idx _ h; obtain ⟨t, ht, _⟩ := h; omega
  | succ fuel ih =>
    intro idx hidx h
    rw [firstStop]
    cases hs : stopB entries key idx with
    | true => exact ⟨idx, by simp⟩
    | false =>
      rw [if_neg Bool.false_ne_true]
      obtain ⟨t, htf, hstop⟩ := h
      have hshift : ∀ u : ℕ, ((idx + 1) % cap + u) % cap = (idx + (u + 1)) % cap := by
        intro u
        rw [Nat.mod_add_mod]
        congr 1
        omega
      cases t with
      | zero =>
        rw [Nat.add_zero, Nat.mod_eq_of_lt hidx] at hstop
        rw [hstop] at hs
        exact Bool.noConfusion hs
      | succ t =>
        refine ih ((idx + 1) % cap) (Nat.mod_lt _ hcap) ⟨t, by omega, ?_⟩
        rw [hshift t]
        exact hstop

/-- For a key not in the table, `findEntry` terminates at an unkeyed
slot; writing the key there makes it findable at that very slot. -/
lemma findEntry_not_mem_spec (m : ℕ) (es : List HEntry) (k : Key)
    (hlen : es.length = 2 ^ m) (hnt : NoTomb es) (hok : KeysOK es)
    (hnm : ¬ memE es k) (hroom : occCount es < 2 ^ m) :
    ∃ r, r < 2 ^ m ∧ findEntry es (2 ^ m) k = some r ∧
      keyAtE es r = none ∧
      ∀ w, findEntry (es.set r ⟨some k, w⟩) (2 ^ m) k = some r := by
  have hcap : 0 < 2 ^ m := Nat.pos_pow_of_pos m (by omega)
  set idx0 := hashString k % 2 ^ m with hidx0def
  have hidx0 : idx0 < 2 ^ m := Nat.mod_lt _ hcap
  obtain ⟨j, hj, hjkey⟩ := exists_empty_slot es (by omega)
  rw [hlen] at hj
  have hex := exists_stop_of_empty es (2 ^ m) k idx0 hcap hidx0 j hj hjkey
  obtain ⟨r, hr⟩ := firstStop_of_exists es (2 ^ m) k hcap (2 ^ m) idx0 hidx0
    (by obtain ⟨t, ht, hs⟩ := hex; exact ⟨t, ht, hs⟩)
  obtain ⟨T, hTf, hrT, hstop, hmin⟩ :=
    firstStop_char es (2 ^ m) k hcap (2 ^ m) idx0 r hidx0 hr
  have hrcap : r < 2 ^ m := by
    rw [hrT]
    exact Nat.mod_lt _ hcap
  have hrkey : keyAtE es r = none := by
    rcases stopB_true_cases hstop (fun k' hk' => keysok_at es hok r k' hk') with h | h
    · exact h
    · exact absurd ⟨r, by omega, h⟩ hnm
  have hfe : findEntry es (2 ^ m) k = some r := by
    rw [findEntry_eq_firstStop es m k hnt]
    exact hr
  refine ⟨r, hrcap, hfe, hrkey, ?_⟩
  intro w
  have hnt' : NoTomb (es.set r ⟨some k, w⟩) :=
    NoTomb_set es r _ hnt (Or.inl (by simp))
  rw [findEntry_eq_firstStop _ m k hnt']
  rw [← hidx0def]
  have hself : keyAtE (es.set r ⟨some k, w⟩) r = some k := by
    rw [keyAtE_set_self es r _ (by omega)]
  have hstop' : stopB (es.set r ⟨some k, w⟩) k ((idx0 + T) % 2 ^ m) = true := by
    rw [← hrT]
    exact stopB_of_self hself
  have hmin' : ∀ u < T, stopB (es.set r ⟨some k, w⟩) k ((idx0 + u) % 2 ^ m) = false := by
    intro u hu
    have hne : (idx0 + u) % 2 ^ m ≠ r := by
      intro hc
      have := hmin u hu
      rw [hc, hstop] at this
      cases this
    rw [stopB_set_ne es r _ _ k hne]
    exact hmin u hu
  rw [firstStop_eq _ (2 ^ m) k hcap (2 ^ m) T idx0 hidx0 hTf hstop' hmin', ← hrT]

/-- Filling an unkeyed slot does not disturb where any stored key is
found. -/
lemma findEntry_frame_stored (m : ℕ) (es : List HEntry) (k' : Key)
    (i : ℕ) (hnt : NoTomb es)
    (hi : i < 2 ^ m) (hk' : keyAtE es i = some k')
    (hfi : findEntry es (2 ^ m) k' = some i)
    (r : ℕ) (hrkey : keyAtE es r = none) (k : Key) (w : Option Value) :
    findEntry (es.set r ⟨some k, w⟩) (2 ^ m) k' = some i := by
  have hcap : 0 < 2 ^ m := Nat.pos_pow_of_pos m (by omega)
  set idx0 := hashString k' % 2 ^ m with hidx0def
  have hidx0 : idx0 < 2 ^ m := Nat.mod_lt _ hcap
  rw [findEntry_eq_firstStop es m k' hnt, ← hidx0def] at hfi
  obtain ⟨T, hTf, hiT, hstop, hmin⟩ :=
    firstStop_char es (2 ^ m) k' hcap (2 ^ m) idx0 i hidx0 hfi
  have hnt' : NoTomb (es.set r ⟨some k, w⟩) :=
    NoTomb_set es r _ hnt (Or.inl (by simp))
  rw [findEntry_eq_firstStop _ m k' hnt', ← hidx0def]
  have hir : i ≠ r := by
    intro hc
    rw [hc, hrkey] at hk'
    cases hk'
  have hstop' : stopB (es.set r ⟨some k, w⟩) k' ((idx0 + T) % 2 ^ m) = true := by
    rw [← hiT]
    refine stopB_of_self ?_
    rw [keyAtE_set_ne es r i _ hir]
    exact hk'
  have hmin' : ∀ u < T,
      stopB (es.set r ⟨some k, w⟩) k' ((idx0 + u) % 2 ^ m) = false := by
    intro u hu
    have hne : (idx0 + u) % 2 ^ m ≠ r := by
      intro hc
      have hsr : stopB es k' ((idx0 + u) % 2 ^ m) = true := by
        rw [hc]
        exact stopB_of_none hrkey
      have := hmin u hu
      rw [hsr] at this
      cases this
    rw [stopB_set_ne es r _ _ k' hne]
    exact hmin u hu
  rw [firstStop_eq _ (2 ^ m) k' hcap (2 ^ m) T idx0 hidx0 hTf hstop' hmin', ← hiT]

lemma stopB_congr (es' es : List HEntry)
    (h : ∀ j, keyAtE es' j = keyAtE es j) (key : Key) (j : ℕ) :
    stopB es' key j = stopB es key j := by
  have h1 : stopB es' key j =
      (match keyAtE es' j with
       | none => true
       | some k' => strcmpIsZero k' key) := rfl
  have h2 : stopB es key j =
      (match keyAtE es j with
       | none => true
       | some k' => strcmpIsZero k' key) := rfl
  rw [h1, h2, h j]

lemma firstStop_congr (es' es : List HEntry) (cap : ℕ) (key : Key)
    (h : ∀ j, stopB es' key j = stopB es key j) :
    ∀ (fuel idx : ℕ),
      firstStop es' cap key idx fuel = firstStop es cap key idx fuel := by
  intro fuel
  induction fuel with
  | zero => intro idx; rfl
  | succ fuel ih =>
    intro idx
    rw [firstStop, firstStop, h idx]
    cases stopB es key idx
    · rw [if_neg Bool.false_ne_true, if_neg Bool.false_ne_true]
      exact ih _
    · rfl

/-- Overwriting a slot's value (same key) moves no probe. -/
lemma findEntry_congr_keys (es' es : List HEntry) (m : ℕ)
    (hnt' : NoTomb es') (hnt : NoTomb es)
    (h : ∀ j, keyAtE es' j = keyAtE es j) (key : Key) :
    findEntry es' (2 ^ m) key = findEntry es (2 ^ m) key := by
  rw [findEntry_eq_firstStop es' m key hnt', findEntry_eq_firstStop es m key hnt]
  exact firstStop_congr es' es (2 ^ m) key (fun j => stopB_congr es' es h key j) _ _

/-! ### `hash_table_get` under the invariants -/

lemma get_of_not_mem (t : HashTable) (k : Key) (hwf : WF t)
    (hnm : ¬ memE t.entries k) : hash_table_get t k = some none := by
  unfold hash_table_get
  by_cases hc : t.count = 0
  · rw [if_pos hc]
  · rw [if_neg hc]
    rcases hwf.pow with hz | ⟨m, _, hm⟩
    · exact absurd (by rw [hwf.cnt]; have := hwf.load; rw [hz] at this
                       unfold occCount
                       omega) hc
    · have hroom : occCount t.entries < 2 ^ m := by
        have := hwf.load
        have := hwf.cnt
        omega
      obtain ⟨r, hr, hfe, hrkey, _⟩ := findEntry_not_mem_spec m t.entries k
        (by rw [hwf.len, hm]) hwf.ntomb hwf.keysok hnm hroom
      rw [hm, hfe]
      simp only [Option.map_some']
      unfold keyAtE at hrkey
      rw [hrkey]

lemma get_of_binds (t : HashTable) (k : Key) (w : Option Value) (i : ℕ)
    (hwf : WF t) (hi : i < t.capacity)
    (hb : t.entries.getD i emptyEntry = ⟨some k, w⟩) :
    hash_table_get t k = some w := by
  have hkey : keyAtE t.entries i = some k := by
    unfold keyAtE
    rw [hb]
  have hmem : memE t.entries k := ⟨i, by rw [hwf.len]; omega, hkey⟩
  have hc : t.count ≠ 0 := by
    have := occCount_pos_of_mem t.entries k hmem
    rw [hwf.cnt]
    omega
  unfold hash_table_get
  rw [if_neg hc, hwf.find i hi k hkey]
  simp only [Option.map_some']
  rw [hb]

/-! ### Rehashing (`adjustCapacity`) -/

lemma keyAtE_replicate (n i : ℕ) :
    keyAtE (List.replicate n emptyEntry) i = none := by
  unfold keyAtE
  by_cases h : i < n
  · rw [List.getD_eq_getElem _ _ (by simpa using h)]
    simp [emptyEntry]
  · rw [List.getD_eq_default _ _ (by simpa using h)]
    rfl

lemma occCount_replicate (n : ℕ) :
    occCount (List.replicate n emptyEntry) = 0 := by
  unfold occCount
  induction n with
  | zero => rfl
  | succ n ih =>
    rw [List.replicate_succ, List.filter_cons, if_neg (by simp [emptyEntry])]
    exact ih

lemma not_memE_replicate (n : ℕ) (k : Key) :
    ¬ memE (List.replicate n emptyEntry) k := by
  rintro ⟨i, _, hk⟩
  rw [keyAtE_replicate] at hk
  cases hk

lemma not_bindsE_replicate (n : ℕ) (k : Key) (w : Option Value) :
    ¬ bindsE (List.replicate n emptyEntry) k w := by
  rintro ⟨i, hi, hk⟩
  have := keyAtE_replicate n i
  unfold keyAtE at this
  rw [hk] at this
  cases this

lemma memE_set_insert (es : List HEntry) (r : ℕ) (k : Key)
    (w : Option Value) (hr : r < es.length) (hrkey : keyAtE es r = none)
    (k' : Key) :
    memE (es.set r ⟨some k, w⟩) k' ↔ memE es k' ∨ k' = k := by
  constructor
  · rintro ⟨i, hi, hk⟩
    rw [List.length_set] at hi
    by_cases hir : i = r
    · subst hir
      rw [keyAtE_set_self es i _ hr] at hk
      cases hk
      exact Or.inr rfl
    · rw [keyAtE_set_ne es r i _ hir] at hk
      exact Or.inl ⟨i, hi, hk⟩
  · rintro (⟨i, hi, hk⟩ | hkk)
    · have hir : i ≠ r := by
        intro hc
        rw [hc, hrkey] at hk
        cases hk
      exact ⟨i, by rw [List.length_set]; omega,
        by rw [keyAtE_set_ne es r i _ hir]; exact hk⟩
    · subst hkk
      exact ⟨r, by rw [List.length_set]; omega, keyAtE_set_self es r _ hr⟩

lemma bindsE_set_insert (es : List HEntry) (r : ℕ) (k : Key)
    (w : Option Value) (hr : r < es.length) (hrkey : keyAtE es r = none)
    (k' : Key) (w' : Option Value) :
    bindsE (es.set r ⟨some k, w⟩) k' w' ↔
      bindsE es k' w' ∨ (k' = k ∧ w' = w) := by
  constructor
  · rintro ⟨i, hi, hk⟩
    rw [List.length_set] at hi
    by_cases hir : i = r
    · subst hir
      have : (es.set i ⟨some k, w⟩).getD i emptyEntry = ⟨some k, w⟩ := by
        rw [List.getD_eq_getElem?_getD, List.getElem?_set_self hr]
        rfl
      rw [this] at hk
      cases hk
      exact Or.inr ⟨rfl, rfl⟩
    · rw [getD_set_ne es r i _ hir] at hk
      exact Or.inl ⟨i, hi, hk⟩
  · rintro (⟨i, hi, hk⟩ | ⟨hkk, hww⟩)
    · have hir : i ≠ r := by
        intro hc
        have hkey := congrArg HEntry.key hk
        rw [hc] at hkey
        unfold keyAtE at hrkey
        rw [hrkey] at hkey
        cases hkey
      exact ⟨i, by rw [List.length_set]; omega,
        by rw [getD_set_ne es r i _ hir]; exact hk⟩
    · subst hkk; subst hww
      refine ⟨r, by rw [List.length_set]; omega, ?_⟩
      rw [List.getD_eq_getElem?_getD, List.getElem?_set_self hr]
      rfl

/-- The reinsertion loop, generalised over the remaining old entries
and the accumulator. -/
lemma adjust_fold (m' : ℕ) :
    ∀ (rem : List HEntry) (esAcc : List HEntry) (cnt : ℕ),
      esAcc.length = 2 ^ m' →
      NoTomb esAcc → KeysOK esAcc → Findable esAcc (2 ^ m') →
      occCount esAcc + occCount rem < 2 ^ m' →
      (∀ e ∈ rem, ∀ k, e.key = some k → KeyOK k) →
      (∀ e ∈ rem, ∀ k, e.key = some k → ¬ memE esAcc k) →
      rem.Pairwise (fun e1 e2 => ∀ k, e1.key = some k → e2.key ≠ some k) →
      ∃ esF cntF,
        rem.foldl (adjustStep (2 ^ m')) (some (esAcc, cnt)) = some (esF, cntF) ∧
        esF.length = 2 ^ m' ∧ NoTomb esF ∧ KeysOK esF ∧
        Findable esF (2 ^ m') ∧
        occCount esF = occCount esAcc + occCount rem ∧
        cntF = cnt + occCount rem ∧
        (∀ k w, bindsE esF k w ↔
          bindsE esAcc k w ∨ ∃ e ∈ rem, e.key = some k ∧ e.value = w) := by
  intro rem
  induction rem with
  | nil =>
    intro esAcc cnt hlen hnt hok hfind _ _ _ _
    refine ⟨esAcc, cnt, rfl, hlen, hnt, hok, hfind, ?_, ?_, ?_⟩
    · simp [occCount]
    · simp [occCount]
    · intro k w
      simp
  | cons e tl ih =>
    intro esAcc cnt hlen hnt hok hfind hroom hkok hdisj hpair
    rw [List.foldl_cons]
    cases hek : e.key with
    | none =>
      have hstep : adjustStep (2 ^ m') (some (esAcc, cnt)) e = some (esAcc, cnt) := by
        unfold adjustStep
        rw [Option.some_bind]
        rw [hek]
      rw [hstep]
      have hocc : occCount (e :: tl) = occCount tl := by
        unfold occCount
        rw [List.filter_cons, if_neg (by simp [hek])]
      obtain ⟨esF, cntF, hfold, h1, h2, h3, h4, h5, h6, h7⟩ :=
        ih esAcc cnt hlen hnt hok hfind (by rw [hocc] at hroom; omega)
          (fun e' he' => hkok e' (by simp [he']))
          (fun e' he' => hdisj e' (by simp [he']))
          (List.Pairwise.of_cons hpair)
      refine ⟨esF, cntF, hfold, h1, h2, h3, h4, ?_, ?_, ?_⟩
      · rw [h5, hocc]
      · rw [h6, hocc]
      · intro k w
        rw [h7 k w]
        constructor
        · rintro (h | ⟨e', he', hk⟩)
          · exact Or.inl h
          · exact Or.inr ⟨e', by simp [he'], hk⟩
        · rintro (h | ⟨e', he', hk⟩)
          · exact Or.inl h
          · rcases List.mem_cons.mp he' with h' | h'
            · subst h'
              rw [hek] at hk
              cases hk.1
            · exact Or.inr ⟨e', h', hk⟩
    | some k =>
      have hkOK : KeyOK k := hkok e (by simp) k hek
      have hnm : ¬ memE esAcc k := hdisj e (by simp) k hek
      have hocc : occCount (e :: tl) = occCount tl + 1 := by
        unfold occCount
        rw [List.filter_cons, if_pos (by simp [hek])]
        simp
      obtain ⟨r, hr, hfe, hrkey, hfr⟩ := findEntry_not_mem_spec m' esAcc k
        hlen hnt hok hnm (by rw [hocc] at hroom; omega)
      have hstep : adjustStep (2 ^ m') (some (esAcc, cnt)) e =
          some (esAcc.set r ⟨some k, e.value⟩, cnt + 1) := by
        unfold adjustStep
        rw [Option.some_bind]
        rw [hek]
        dsimp only
        rw [hfe]
        rfl
      rw [hstep]
      set es' := esAcc.set r ⟨some k, e.value⟩ with hes'
      have hrlen : r < esAcc.length := by omega
      have hlen' : es'.length = 2 ^ m' := by
        rw [hes', List.length_set, hlen]
      have hnt' : NoTomb es' := NoTomb_set esAcc r _ hnt (Or.inl (by simp))
      have hok' : KeysOK es' := KeysOK_set esAcc r _ hok
        (fun k0 hk0 => by cases hk0; exact hkOK)
      have hfind' : Findable es' (2 ^ m') := by
        intro i hi k0 hk0
        by_cases hir : i = r
        · subst hir
          rw [hes'] at hk0
          rw [keyAtE_set_self esAcc i _ hrlen] at hk0
          cases hk0
          exact hfr e.value
        · rw [hes', keyAtE_set_ne esAcc r i _ hir] at hk0
          exact findEntry_frame_stored m' esAcc k0 i hnt hi hk0
            (hfind i hi k0 hk0) r hrkey k e.value
      have hocc' : occCount es' = occCount esAcc + 1 := by
        rw [hes']
        have h0 := occCount_set esAcc r hrlen ⟨some k, e.value⟩
        unfold keyAtE at hrkey
        rw [hrkey] at h0
        simp at h0
        omega
      have hmem' : ∀ k', memE es' k' ↔ memE esAcc k' ∨ k' = k :=
        memE_set_insert esAcc r k e.value hrlen hrkey
      obtain ⟨esF, cntF, hfold, h1, h2, h3, h4, h5, h6, h7⟩ :=
        ih es' (cnt + 1) hlen' hnt' hok' hfind'
          (by rw [hocc] at hroom; omega)
          (fun e' he' => hkok e' (by simp [he']))
          (fun e' he' k' hk' => by
            rw [hmem' k']
            rintro (h | h)
            · exact hdisj e' (by simp [he']) k' hk' h
            · subst h
              exact (List.pairwise_cons.mp hpair).1 e' he' _ hek hk')
          (List.Pairwise.of_cons hpair)
      refine ⟨esF, cntF, hfold, h1, h2, h3, h4, ?_, ?_, ?_⟩
      · rw [h5, hocc', hocc]
        omega
      · rw [h6, hocc]
        omega
      · intro k' w
        rw [h7 k' w, bindsE_set_insert esAcc r k e.value hrlen hrkey k' w]
        constructor
        · rintro ((h | ⟨hk', hw⟩) | ⟨e', he', hk⟩)
          · exact Or.inl h
          · exact Or.inr ⟨e, by simp, by rw [hek, hk'], hw.symm⟩
          · exact Or.inr ⟨e', by simp [he'], hk⟩
        · rintro (h | ⟨e', he', hk⟩)
          · exact Or.inl (Or.inl h)
          · rcases List.mem_cons.mp he' with h' | h'
            · subst h'
              rw [hek] at hk
              refine Or.inl (Or.inr ⟨?_, ?_⟩)
              · cases hk.1; rfl
              · exact hk.2.symm
            · exact Or.inr ⟨e', h', hk⟩

lemma bindsE_iff_exists_mem (es : List HEntry) (k : Key) (w : Option Value) :
    bindsE es k w ↔ ∃ e ∈ es, e.key = some k ∧ e.value = w := by
  constructor
  · rintro ⟨i, hi, hk⟩
    exact ⟨es.getD i emptyEntry, getD_mem es i hi, by rw [hk], by rw [hk]⟩
  · rintro ⟨e, he, hk, hv⟩
    obtain ⟨i, hi, hie⟩ := List.mem_iff_getElem.mp he
    refine ⟨i, hi, ?_⟩
    rw [List.getD_eq_getElem _ _ hi, hie]
    cases e
    simp_all

lemma memE_iff_exists_mem (es : List HEntry) (k : Key) :
    memE es k ↔ ∃ e ∈ es, e.key = some k := by
  constructor
  · rintro ⟨i, hi, hk⟩
    unfold keyAtE at hk
    exact ⟨es.getD i emptyEntry, getD_mem es i hi, hk⟩
  · rintro ⟨e, he, hk⟩
    obtain ⟨i, hi, hie⟩ := List.mem_iff_getElem.mp he
    refine ⟨i, hi, ?_⟩
    unfold keyAtE
    rw [List.getD_eq_getElem _ _ hi, hie]
    exact hk

/-- Distinct slots of a well-formed table hold distinct keys. -/
lemma pairwise_keys (t : HashTable) (hwf : WF t) :
    t.entries.Pairwise (fun e1 e2 => ∀ k, e1.key = some k → e2.key ≠ some k) := by
  rw [List.pairwise_iff_getElem]
  intro i j hi hj hij
  intro k hk1 hk2
  have h1 : keyAtE t.entries i = some k := by
    unfold keyAtE
    rw [List.getD_eq_getElem _ _ hi]
    exact hk1
  have h2 : keyAtE t.entries j = some k := by
    unfold keyAtE
    rw [List.getD_eq_getElem _ _ hj]
    exact hk2
  have f1 := hwf.find i (by rw [← hwf.len]; omega) k h1
  have f2 := hwf.find j (by rw [← hwf.len]; omega) k h2
  rw [f1] at f2
  cases f2
  omega

/-- `adjustCapacity` to a power-of-two capacity with room: succeeds,
keeps the count and all bindings, and re-establishes the structural
invariants at the new capacity. -/
lemma adjustCapacity_spec (t : HashTable) (m' : ℕ) (hwf : WF t)
    (hroom : t.count < 2 ^ m') :
    ∃ t1, adjustCapacity t (2 ^ m') = some t1 ∧
      t1.capacity = 2 ^ m' ∧ t1.count = t.count ∧
      t1.entries.length = 2 ^ m' ∧ NoTomb t1.entries ∧ KeysOK t1.entries ∧
      Findable t1.entries (2 ^ m') ∧ occCount t1.entries = t.count ∧
      (∀ k w, bindsE t1.entries k w ↔ bindsE t.entries k w) ∧
      (∀ k, memE t1.entries k ↔ memE t.entries k) := by
  have hocc : occCount t.entries = t.count := hwf.cnt.symm
  obtain ⟨esF, cntF, hfold, h1, h2, h3, h4, h5, h6, h7⟩ :=
    adjust_fold m' t.entries (List.replicate (2 ^ m') emptyEntry) 0
      (by simp)
      (fun e he hk => by
        have := List.eq_of_mem_replicate he
        subst this
        rfl)
      (fun e he k hk => by
        have := List.eq_of_mem_replicate he
        subst this
        simp [emptyEntry] at hk)
      (by
        intro i hi k hk
        rw [keyAtE_replicate] at hk
        cases hk)
      (by rw [occCount_replicate, hocc]; omega)
      (fun e he k hk => hwf.keysok e he k hk)
      (fun e _ k _ => not_memE_replicate (2 ^ m') k)
      (pairwise_keys t hwf)
  refine ⟨⟨cntF, 2 ^ m', esF⟩, ?_, rfl, ?_, h1, h2, h3, h4, ?_, ?_, ?_⟩
  · unfold adjustCapacity
    dsimp only
    rw [hfold]
    rfl
  · dsimp only
    rw [h6, hocc]
    omega
  · dsimp only
    rw [h5, occCount_replicate, hocc]
    omega
  · intro k w
    dsimp only
    rw [h7 k w, bindsE_iff_exists_mem t.entries k w]
    constructor
    · rintro (h | h)
      · exact absurd h (not_bindsE_replicate _ k w)
      · exact h
    · exact fun h => Or.inr h
  · intro k
    dsimp only
    constructor
    · rintro ⟨i, hi, hk⟩
      have hb : bindsE esF k ((esF.getD i emptyEntry).value) := by
        refine ⟨i, hi, ?_⟩
        unfold keyAtE at hk
        cases hget : esF.getD i emptyEntry
        rw [hget] at hk
        simp_all
      rw [h7] at hb
      rcases hb with h | h
      · exact absurd h (not_bindsE_replicate _ k _)
      · rw [memE_iff_exists_mem]
        obtain ⟨e, he, hk2, _⟩ := h
        exact ⟨e, he, hk2⟩
    · intro hm
      rw [memE_iff_exists_mem] at hm
      obtain ⟨e, he, hk⟩ := hm
      have hb : bindsE esF k e.value := by
        rw [h7]
        exact Or.inr ⟨e, he, hk, rfl⟩
      obtain ⟨i, hi, hie⟩ := hb
      refine ⟨i, hi, ?_⟩
      unfold keyAtE
      rw [hie]

/-- Tables with the same bindings answer every `get` identically. -/
lemma get_eq_of_same_binds (t1 t2 : HashTable) (k' : Key)
    (h1 : WF t1) (h2 : WF t2)
    (hb : ∀ w, bindsE t1.entries k' w ↔ bindsE t2.entries k' w)
    (hm : memE t1.entries k' ↔ memE t2.entries k') :
    hash_table_get t1 k' = hash_table_get t2 k' := by
  by_cases hmem : memE t2.entries k'
  · obtain ⟨i, hi, hk⟩ := hmem
    have hbind : bindsE t2.entries k' ((t2.entries.getD i emptyEntry).value) := by
      refine ⟨i, hi, ?_⟩
      unfold keyAtE at hk
      cases hget : t2.entries.getD i emptyEntry
      rw [hget] at hk
      simp_all
    have hg2 : hash_table_get t2 k' = some ((t2.entries.getD i emptyEntry).value) :=
      get_of_binds t2 k' _ i h2 (by rw [← h2.len]; omega) (by
        unfold keyAtE at hk
        cases hget : t2.entries.getD i emptyEntry
        rw [hget] at hk
        simp_all)
    obtain ⟨j, hj, hje⟩ := (hb _).mpr hbind
    have hg1 : hash_table_get t1 k' = some ((t2.entries.getD i emptyEntry).value) :=
      get_of_binds t1 k' _ j h1 (by rw [← h1.len]; omega) hje
    rw [hg1, hg2]
  · have hnm1 : ¬ memE t1.entries k' := fun h => hmem (hm.mp h)
    rw [get_of_not_mem t1 k' h1 hnm1, get_of_not_mem t2 k' h2 hmem]

/-- Overwriting the value at a slot whose key differs from `k'`
changes no `k'` binding. -/
lemma bindsE_set_other_key (es : List HEntry) (i : ℕ) (k k' : Key)
    (w' : Option Value) (e' : HEntry)
    (hkey : keyAtE es i = some k) (he' : e'.key = some k)
    (hne : k' ≠ k) :
    bindsE (es.set i e') k' w' ↔ bindsE es k' w' := by
  constructor
  · rintro ⟨j, hj, hje⟩
    rw [List.length_set] at hj
    by_cases hji : j = i
    · subst hji
      have hthis : keyAtE (es.set j e') j = some k' := by
        unfold keyAtE
        rw [hje]
      rw [keyAtE_set_self es j e' (by omega), he'] at hthis
      injection hthis with hkk
      exact absurd hkk.symm hne
    · rw [getD_set_ne es i j e' hji] at hje
      exact ⟨j, hj, hje⟩
  · rintro ⟨j, hj, hje⟩
    by_cases hji : j = i
    · subst hji
      have := congrArg HEntry.key hje
      unfold keyAtE at hkey
      rw [hkey] at this
      simp at this
      exact absurd this.symm hne
    · exact ⟨j, by rw [List.length_set]; omega,
        by rw [getD_set_ne es i j e' hji]; exact hje⟩

lemma getD_set_self (es : List HEntry) (i : ℕ) (e' : HEntry)
    (h : i < es.length) : (es.set i e').getD i emptyEntry = e' := by
  rw [List.getD_eq_getElem?_getD, List.getElem?_set_self h]
  rfl

lemma memE_congr_keys (es' es : List HEntry)
    (hlen : es'.length = es.length)
    (hkeys : ∀ j, keyAtE es' j = keyAtE es j) (k : Key) :
    memE es' k ↔ memE es k := by
  constructor
  · rintro ⟨i, hi, hk⟩
    exact ⟨i, by omega, by rw [← hkeys i]; exact hk⟩
  · rintro ⟨i, hi, hk⟩
    exact ⟨i, by omega, by rw [hkeys i]; exact hk⟩

/-- The growth step at the head of `hash_table_set`: it fires exactly
when `count + 1` exceeds three quarters of the capacity, grows 0 → 8
and otherwise doubles, and preserves count, bindings and the
invariants, leaving room for one more insertion. -/
lemma set_grow (t : HashTable) (hwf : WF t) :
    ∃ t1 m1,
      (if 3 * t.capacity < 4 * (t.count + 1) then
          adjustCapacity t (if t.capacity < 8 then 8 else t.capacity * 2)
        else some t) = some t1 ∧
      3 ≤ m1 ∧ t1.capacity = 2 ^ m1 ∧
      t1.capacity = (if 3 * t.capacity < 4 * (t.count + 1)
        then (if t.capacity < 8 then 8 else t.capacity * 2) else t.capacity) ∧
      t1.count = t.count ∧ WF t1 ∧
      4 * (t1.count + 1) ≤ 3 * t1.capacity ∧
      (∀ k w, bindsE t1.entries k w ↔ bindsE t.entries k w) ∧
      (∀ k, memE t1.entries k ↔ memE t.entries k) := by
  by_cases htrig : 3 * t.capacity < 4 * (t.count + 1)
  · rcases hwf.pow with hz | ⟨m, hm3, hm⟩
    · have hcnt0 : t.count = 0 := by
        have := hwf.load
        rw [hz] at this
        omega
      obtain ⟨t1, hadj, hcap, hcnt, hlen, hnt, hok, hfind, hocc, hbinds, hmem⟩ :=
        adjustCapacity_spec t 3 hwf (by rw [hcnt0]; norm_num)
      have hwf1 : WF t1 := by
        refine ⟨Or.inr ⟨3, le_refl 3, hcap⟩, by rw [hlen, hcap], ?_, ?_, hnt, hok,
          by rw [hcap]; exact hfind⟩
        · rw [hcnt, hcnt0, hcap]
          norm_num
        · rw [hcnt, hocc]
      refine ⟨t1, 3, ?_, le_refl 3, hcap, ?_, hcnt, hwf1, ?_, hbinds, hmem⟩
      · rw [if_pos htrig, if_pos (by rw [hz]; norm_num)]
        have h8 : (8 : ℕ) = 2 ^ 3 := by norm_num
        rw [h8]
        exact hadj
      · rw [if_pos htrig, if_pos (by rw [hz]; norm_num), hcap]
        norm_num
      · rw [hcnt, hcnt0, hcap]
        norm_num
    · have hge8 : 8 ≤ t.capacity := by
        rw [hm]
        calc (8 : ℕ) = 2 ^ 3 := by norm_num
        _ ≤ 2 ^ m := Nat.pow_le_pow_right (by omega) hm3
      have hroom : t.count < 2 ^ (m + 1) := by
        have := hwf.load
        rw [hm] at this
        have h2 : 2 ^ (m + 1) = 2 ^ m * 2 := by rw [pow_succ]
        omega
      obtain ⟨t1, hadj, hcap, hcnt, hlen, hnt, hok, hfind, hocc, hbinds, hmem⟩ :=
        adjustCapacity_spec t (m + 1) hwf hroom
      have hload1 : 4 * (t1.count + 1) ≤ 3 * t1.capacity := by
        have := hwf.load
        rw [hm] at this
        rw [hcnt, hcap, pow_succ]
        have h8 : 8 ≤ 2 ^ m := by
          calc (8 : ℕ) = 2 ^ 3 := by norm_num
          _ ≤ 2 ^ m := Nat.pow_le_pow_right (by omega) hm3
        omega
      have hwf1 : WF t1 := by
        refine ⟨Or.inr ⟨m + 1, by omega, hcap⟩, by rw [hlen, hcap], by omega,
          ?_, hnt, hok, by rw [hcap]; exact hfind⟩
        rw [hcnt, hocc]
      refine ⟨t1, m + 1, ?_, by omega, hcap, ?_, hcnt, hwf1, hload1, hbinds, hmem⟩
      · rw [if_pos htrig, if_neg (by omega)]
        have hdouble : t.capacity * 2 = 2 ^ (m + 1) := by
          rw [hm, pow_succ]
        rw [hdouble]
        exact hadj
      · rw [if_pos htrig, if_neg (by omega), hcap, hm, pow_succ]
  · have hcapne : t.capacity ≠ 0 := by
      intro hz
      rw [hz] at htrig
      omega
    rcases hwf.pow with hz | ⟨m, hm3, hm⟩
    · exact absurd hz hcapne
    · refine ⟨t, m, by rw [if_neg htrig], hm3, hm, by rw [if_neg htrig], rfl,
        hwf, by omega, fun k w => Iff.rfl, fun k => Iff.rfl⟩

/-- C9 (confirmed): on a well-formed table, `hash_table_set t k v`
succeeds; `hash_table_get` then returns the value just stored for `k`;
the boolean result is true iff `k` was not already present; every other
key's binding is unchanged (including across a rehash); the capacity is
a power of two that grows 0 → 8 and otherwise doubles exactly when
`count + 1` would exceed 0.75 of it; and well-formedness is
preserved. -/
theorem c9_hash_table_set_get (t : HashTable) (k : Key) (v : Value)
    (hwf : WF t) (hk : KeyOK k) :
    ∃ t' b, hash_table_set t k v = some (t', b) ∧
      hash_table_get t' k = some (some v) ∧
      (b = true ↔ ¬ memE t.entries k) ∧
      (∀ k', k' ≠ k → hash_table_get t' k' = hash_table_get t k') ∧
      t'.capacity = (if 3 * t.capacity < 4 * (t.count + 1)
        then (if t.capacity < 8 then 8 else t.capacity * 2)
        else t.capacity) ∧
      WF t' := by
  obtain ⟨t1, m1, hgrow, hm1, hcap1, hcapif, hcnt1, hwf1, hload1, hbinds1, hmem1⟩ :=
    set_grow t hwf
  by_cases hmem : memE t1.entries k
  · -- k already present: the matching slot's value is overwritten
    obtain ⟨i, hi, hki⟩ := hmem
    have hical : i < t1.capacity := by rw [← hwf1.len]; omega
    have hfind_i : findEntry t1.entries t1.capacity k = some i :=
      hwf1.find i hical k hki
    have hkiraw : (t1.entries.getD i emptyEntry).key = some k := hki
    set es' := t1.entries.set i ⟨some k, some v⟩ with hes'
    have hset : hash_table_set t k v = some (⟨t1.count, t1.capacity, es'⟩, false) := by
      unfold hash_table_set
      dsimp only
      rw [hgrow, Option.some_bind, hfind_i, Option.map_some']
      have h1 : ¬ ((t1.entries.getD i emptyEntry).key = none) := by
        rw [hkiraw]
        simp
      rw [if_neg (fun hc => h1 hc.1), if_neg h1, hkiraw]
      simp [hes']
    have hkeys : ∀ j, keyAtE es' j = keyAtE t1.entries j := by
      intro j
      by_cases hj : j = i
      · subst hj
        rw [hes', keyAtE_set_self t1.entries j _ (by omega), hki]
      · rw [hes', keyAtE_set_ne t1.entries i j _ hj]
    have hnt' : NoTomb es' := NoTomb_set t1.entries i _ hwf1.ntomb (Or.inl (by simp))
    have hok' : KeysOK es' := KeysOK_set t1.entries i _ hwf1.keysok
      (fun k0 hk0 => by cases hk0; exact hk)
    have hfecongr : ∀ k0, findEntry es' t1.capacity k0 = findEntry t1.entries t1.capacity k0 := by
      intro k0
      rw [hcap1]
      exact findEntry_congr_keys es' t1.entries m1 hnt' hwf1.ntomb hkeys k0
    have hwf' : WF (⟨t1.count, t1.capacity, es'⟩ : HashTable) := by
      refine ⟨Or.inr ⟨m1, hm1, hcap1⟩, by rw [hes', List.length_set]; exact hwf1.len,
        hwf1.load, ?_, hnt', hok', ?_⟩
      · have h0 := occCount_set t1.entries i (by omega) ⟨some k, some v⟩
        rw [hkiraw] at h0
        simp at h0
        have := hwf1.cnt
        dsimp only
        rw [← hes'] at h0
        omega
      · intro i' hi' k0 hk0
        dsimp only at hi' hk0 ⊢
        rw [hfecongr k0]
        rw [hkeys i'] at hk0
        exact hwf1.find i' hi' k0 hk0
    have hbind' : es'.getD i emptyEntry = ⟨some k, some v⟩ := by
      rw [hes']
      exact getD_set_self t1.entries i _ (by omega)
    refine ⟨⟨t1.count, t1.capacity, es'⟩, false, hset, ?_, ?_, ?_, ?_, hwf'⟩
    · exact get_of_binds _ k (some v) i hwf' hical hbind'
    · have hmt : memE t.entries k := (hmem1 k).mp ⟨i, hi, hki⟩
      simp [hmt]
    · intro k' hne
      have hb' : ∀ w, bindsE es' k' w ↔ bindsE t.entries k' w := by
        intro w
        rw [hes', bindsE_set_other_key t1.entries i k k' w _ hki rfl hne]
        exact hbinds1 k' w
      have hm' : memE es' k' ↔ memE t.entries k' := by
        rw [memE_congr_keys es' t1.entries (by rw [hes', List.length_set]) hkeys k']
        exact hmem1 k'
      exact get_eq_of_same_binds _ t k' hwf' hwf hb' hm'
    · rw [← hcapif]
  · -- k absent: it is inserted into the unkeyed slot the probe finds
    have hroomo : occCount t1.entries < 2 ^ m1 := by
      have := hwf1.cnt
      rw [hcap1] at hload1
      omega
    obtain ⟨r, hr, hfe, hrkey, hfr⟩ := findEntry_not_mem_spec m1 t1.entries k
      (by rw [hwf1.len, hcap1]) hwf1.ntomb hwf1.keysok hmem hroomo
    have hrlen : r < t1.entries.length := by rw [hwf1.len, hcap1]; omega
    have hrkraw : (t1.entries.getD r emptyEntry).key = none := hrkey
    have hrval : (t1.entries.getD r emptyEntry).value = none :=
      hwf1.ntomb _ (getD_mem _ _ hrlen) hrkraw
    have hfe' : findEntry t1.entries t1.capacity k = some r := by
      rw [hcap1]
      exact hfe
    set es' := t1.entries.set r ⟨some k, some v⟩ with hes'
    have hset : hash_table_set t k v =
        some (⟨t1.count + 1, t1.capacity, es'⟩, true) := by
      unfold hash_table_set
      dsimp only
      rw [hgrow, Option.some_bind, hfe', Option.map_some']
      have h1 : (t1.entries.getD r emptyEntry).key = none := hrkey
      rw [if_pos ⟨h1, hrval⟩, if_pos h1, decide_eq_true h1]
    have hnt' : NoTomb es' := NoTomb_set t1.entries r _ hwf1.ntomb (Or.inl (by simp))
    have hok' : KeysOK es' := KeysOK_set t1.entries r _ hwf1.keysok
      (fun k0 hk0 => by cases hk0; exact hk)
    have hwf' : WF (⟨t1.count + 1, t1.capacity, es'⟩ : HashTable) := by
      refine ⟨Or.inr ⟨m1, hm1, hcap1⟩, by rw [hes', List.length_set]; exact hwf1.len,
        hload1, ?_, hnt', hok', ?_⟩
      · have h0 := occCount_set t1.entries r hrlen ⟨some k, some v⟩
        rw [hrkraw] at h0
        simp at h0
        have := hwf1.cnt
        dsimp only
        rw [← hes'] at h0
        omega
      · intro i' hi' k0 hk0
        dsimp only at hi' hk0 ⊢
        by_cases hir : i' = r
        · subst hir
          rw [hes', keyAtE_set_self t1.entries i' _ hrlen] at hk0
          cases hk0
          rw [hcap1, hes']
          exact hfr (some v)
        · rw [hes', keyAtE_set_ne t1.entries r i' _ hir] at hk0
          rw [hcap1, hes']
          exact findEntry_frame_stored m1 t1.entries k0 i' hwf1.ntomb
            (by rw [← hcap1]; exact hi') hk0
            (by rw [← hcap1]; exact hwf1.find i' hi' k0 hk0) r hrkey k (some v)
    have hbind' : es'.getD r emptyEntry = ⟨some k, some v⟩ := by
      rw [hes']
      exact getD_set_self t1.entries r _ hrlen
    refine ⟨⟨t1.count + 1, t1.capacity, es'⟩, true, hset, ?_, ?_, ?_, ?_, hwf'⟩
    · exact get_of_binds _ k (some v) r hwf' (by rw [hcap1]; omega) hbind'
    · have hmt : ¬ memE t.entries k := fun h => hmem ((hmem1 k).mpr h)
      simp [hmt]
    · intro k' hne
      have hb' : ∀ w, bindsE es' k' w ↔ bindsE t.entries k' w := by
        intro w
        rw [hes', bindsE_set_insert t1.entries r k (some v) hrlen hrkey k' w]
        constructor
        · rintro (h | ⟨hkk, _⟩)
          · exact (hbinds1 k' w).mp h
          · exact absurd hkk hne
        · exact fun h => Or.inl ((hbinds1 k' w).mpr h)
      have hm' : memE es' k' ↔ memE t.entries k' := by
        rw [hes', memE_set_insert t1.entries r k (some v) hrlen hrkey k']
        constructor
        · rintro (h | h)
          · exact (hmem1 k').mp h
          · exact absurd h hne
        · exact fun h => Or.inl ((hmem1 k').mpr h)
      exact get_eq_of_same_binds _ t k' hwf' hwf hb' hm'
    · rw [← hcapif]

/-- The freshly initialised table (`hash_table_init`). -/
lemma wf_empty : WF (⟨0, 0, []⟩ : HashTable) := by
  refine ⟨Or.inl rfl, rfl, by decide, rfl, ?_, ?_, ?_⟩
  · intro e he
    cases he
  · intro e he
    cases he
  · intro i hi
    exact absurd hi (Nat.not_lt_zero i)

/-- Witness for C9: inserting the key "a" (byte 97) into the empty
table grows it to capacity 8, stores the binding at slot 4 (the FNV-1a
hash of "a" modulo 8), and the theorem's conclusions hold there. -/
theorem c9_witness :
    hash_table_set ⟨0, 0, []⟩ [97] Value.null =
      some (⟨1, 8, [⟨none, none⟩, ⟨none, none⟩, ⟨none, none⟩, ⟨none, none⟩,
        ⟨some [97], some Value.null⟩, ⟨none, none⟩, ⟨none, none⟩,
        ⟨none, none⟩]⟩, true) ∧
    (∃ t' b, hash_table_set ⟨0, 0, []⟩ [97] Value.null = some (t', b) ∧
      hash_table_get t' [97] = some (some Value.null) ∧
      (b = true ↔ ¬ memE (⟨0, 0, []⟩ : HashTable).entries [97]) ∧
      (∀ k', k' ≠ [97] → hash_table_get t' k' = hash_table_get ⟨0, 0, []⟩ k') ∧
      t'.capacity = (if 3 * (0 : ℕ) < 4 * (0 + 1)
        then (if (0 : ℕ) < 8 then 8 else 0 * 2) else 0) ∧
      WF t') :=
  ⟨by decide,
   c9_hash_table_set_get ⟨0, 0, []⟩ [97] Value.null wf_empty (by unfold KeyOK; decide)⟩

/-! ### C7: `OP_GLOBAL_GET` (interpreter.c:579-586) -/

/-- Result of executing `OP_GLOBAL_GET`.  `ok` pushes the found value;
`nullDeref` is the C code dereferencing the `NULL` returned by
`hash_table_get` for an absent name (`*hash_table_get(...)` at
interpreter.c:582 with no check): undefined behaviour, a crash with no
diagnostic and no controlled exit; `noFuel` propagates a diverging
probe loop. -/
inductive GGRes where
  | ok (stack : List Value)
  | nullDeref
  | noFuel
deriving DecidableEq, Repr

/-- `OP_GLOBAL_GET` (interpreter.c:579-586): the name has been popped
(it is the string `name`, the `TO_STRING(name)->value` bytes); the code
unconditionally dereferences the pointer returned by `hash_table_get`
and pushes the result.  There is no branch testing for `NULL`, so the
absent-name case is the bare dereference, not a runtime-error path. -/
def op_global_get (globals : HashTable) (name : Key) (stack : List Value) :
    GGRes :=
  match hash_table_get globals name with
  | none => GGRes.noFuel
  | some none => GGRes.nullDeref
  | some (some v) => GGRes.ok (v :: stack)

/-- C7: executing `OP_GLOBAL_GET` for the name "x" (byte 120) against
the empty globals table dereferences the `NULL` pointer returned by
`hash_table_get` - a crash by undefined behaviour with no diagnostic
message and no controlled nonzero exit - for every operand stack.  The
claim instead asserts a fatal runtime error with a diagnostic; no such
path exists in the source (interpreter.c:579-586 contains no check and
no error call). -/
theorem c7_global_get_missing_is_null_deref (stack : List Value) :
    op_global_get ⟨0, 0, []⟩ [120] stack = GGRes.nullDeref := rfl

end Positron
